import Mathlib

set_option maxRecDepth 1000000

/-!
Verification of the HireTrack job-tracker ingestion pipeline (local_app.py).

The Python source is shallowly embedded: strings are `List Char` (Python
`str` indexes by code point, as `List Char` does), the pieces of
`urllib.parse` that the program calls (`urlparse`, `parse_qs`, `urlencode`,
`urlunparse`) are modelled function-by-function after the CPython
implementations, exceptions are `Except`, and SQLite rows are records in a
list store.  Library-level notes on faithfulness:

* percent-coding (`unquote_plus` / `quote_plus`) is modelled at the byte
  level: an escape `%XY` decodes to the single char with code `16*X+Y` and
  chars with code < 256 encode as one `%XY` escape.  On ASCII input this
  produces exactly CPython's strings for every valid UTF-8 escape sequence
  (the bytes re-encode to the same escapes); only the replacement-character
  handling of invalid UTF-8 differs, which no theorem below depends on.
* `str.lower` is modelled as ASCII case folding (`Char.toLower`), which
  agrees with CPython on all ASCII text.
* `urlsplit` is modelled after CPython 3.11.6, whose raise sites are the
  mismatched-square-bracket check on the authority, the
  `_check_bracketed_host` validation (which runs exactly when the authority
  contains both `[` and `]`), and the `_checknetloc` NFKC audit.  The
  mismatch check is modelled exactly, message included.  The other two are
  modelled down to their decidable guards: the NFKC audit returns
  immediately for an empty or all-ASCII authority (the model is exact
  there), and past that point it consults the Unicode NFKC tables; the
  bracketed-host verdict is `ipaddress`'s IPv4/IPv6 classification.
  Neither verdict is decided by this embedding — the model reports both
  cases out of scope with distinct errors instead of assuming they pass.
  A model `.ok` therefore never claims a success the interpreter does not
  have, and every theorem asserting success or a particular error
  restricts itself to ASCII bracket-free input, where the model is exact.
-/

namespace HireTrack

abbrev Str := List Char

/-- Lift a `String` literal to the `List Char` representation. -/
def lit (s : String) : Str := s.data

/-- Model of Python `str.split(sep, 1)`: split at the first occurrence of a
single character, returning the part before and, when found, the part after. -/
def splitAtFirst (c : Char) : Str → Str × Option Str
  | [] => ([], none)
  | x :: xs =>
    if x = c then ([], some xs)
    else
      let r := splitAtFirst c xs
      (x :: r.1, r.2)

/-- Part of `s` strictly before the first occurrence of `c` (all of `s` if
`c` does not occur); Python `s.split(c)[0]`. -/
def beforeFirst (c : Char) (s : Str) : Str := (splitAtFirst c s).1

/-- Model of Python `str.find(sub)`: index of the first occurrence of `sub`
as a contiguous substring, or `none`. -/
def findSub (sep : Str) : Str → Option Nat
  | [] => if sep.isPrefixOf [] then some 0 else none
  | x :: xs =>
    if sep.isPrefixOf (x :: xs) then some 0
    else (findSub sep xs).map (· + 1)

/-- Model of the Python `in` test on strings (contiguous substring). -/
def containsSub (sep s : Str) : Bool := (findSub sep s).isSome

/-- Model of Python `str.split(sep)` for a non-empty separator, with explicit
fuel (any fuel at least `length s + 1` computes the full split). -/
def splitOnSubF (sep : Str) : Nat → Str → List Str
  | 0, s => [s]
  | fuel + 1, s =>
    match findSub sep s with
    | none => [s]
    | some i => s.take i :: splitOnSubF sep fuel (s.drop (i + sep.length))

/-- Model of Python `str.split(sep)` for a non-empty separator. -/
def splitOnSub (sep s : Str) : List Str := splitOnSubF sep (s.length + 1) s

/-- Model of Python `str.rsplit('/', ...)`-style last-occurrence split: part
before and after the last occurrence of `c`, when `c` occurs. -/
def splitAtLast (c : Char) (s : Str) : Str × Option Str :=
  match splitAtFirst c s.reverse with
  | (_, none) => (s, none)
  | (revAfter, some revBefore) => (revBefore.reverse, some revAfter.reverse)

/-- Model of Python `str.strip()` (ASCII whitespace, which is all the
whitespace the scanned sources contain). -/
def pyStrip (s : Str) : Str :=
  (s.dropWhile Char.isWhitespace).reverse.dropWhile Char.isWhitespace |>.reverse

/-- Model of Python `str.lower()` restricted to ASCII case folding. -/
def pyLower (s : Str) : Str := s.map Char.toLower

/-- Model of Python slicing `s[:n]` (by code points). -/
def pyTake (n : Nat) (s : Str) : Str := s.take n

/-! ### Percent-coding (`urllib.parse.unquote_plus` / `quote_plus`) -/

/-- Numeric value of a hex digit (both cases), `16` on non-hex input so that
invalid digits are recognisable. -/
def hexVal (c : Char) : Nat :=
  if '0' ≤ c ∧ c ≤ '9' then c.toNat - '0'.toNat
  else if 'a' ≤ c ∧ c ≤ 'f' then c.toNat - 'a'.toNat + 10
  else if 'A' ≤ c ∧ c ≤ 'F' then c.toNat - 'A'.toNat + 10
  else 16

def isHexDigit (c : Char) : Bool := hexVal c < 16

/-- Percent-decoding as done by `urllib.parse.unquote`: a `%` followed by two
hex digits becomes the char with that byte value, anything else is kept. -/
def percentDecode : Str → Str
  | [] => []
  | '%' :: a :: b :: rest =>
    if isHexDigit a ∧ isHexDigit b then
      Char.ofNat (16 * hexVal a + hexVal b) :: percentDecode rest
    else '%' :: percentDecode (a :: b :: rest)
  | c :: rest => c :: percentDecode rest

/-- Model of `urllib.parse.unquote_plus`: `+` becomes a space, then
percent-escapes are decoded. -/
def unquotePlus (s : Str) : Str :=
  percentDecode (s.map fun c => if c = '+' then ' ' else c)

/-- Upper-case hex digit for a value below 16. -/
def hexDigitU (n : Nat) : Char :=
  if n < 10 then Char.ofNat ('0'.toNat + n) else Char.ofNat ('A'.toNat + n - 10)

/-- One `%XY` escape for a byte value. -/
def encByte (b : Nat) : Str := ['%', hexDigitU (b / 16 % 16), hexDigitU (b % 16)]

/-- UTF-8 bytes of a code point (used by `quote` for chars above one byte). -/
def utf8Bytes (n : Nat) : List Nat :=
  if n < 0x80 then [n]
  else if n < 0x800 then [0xC0 + n / 64, 0x80 + n % 64]
  else if n < 0x10000 then [0xE0 + n / 4096, 0x80 + n / 64 % 64, 0x80 + n % 64]
  else [0xF0 + n / 262144, 0x80 + n / 4096 % 64, 0x80 + n / 64 % 64, 0x80 + n % 64]

/-- Bytes a char contributes to percent-encoding.  Chars below 256 are kept
as single bytes so that decoding and re-encoding round-trips exactly as
CPython's `unquote`/`quote` pair does on ASCII query strings. -/
def charBytes (c : Char) : List Nat :=
  if c.toNat < 256 then [c.toNat] else utf8Bytes c.toNat

/-- The characters `urllib.parse.quote` never encodes (with `safe=''`, as
`urlencode` passes): ASCII alphanumerics and `_.-~`. -/
def alwaysSafe (c : Char) : Bool :=
  c.isAlphanum ∨ c = '_' ∨ c = '.' ∨ c = '-' ∨ c = '~'

/-- Model of `urllib.parse.quote_plus` with `safe=''`. -/
def quotePlus (s : Str) : Str :=
  s.flatMap fun c =>
    if alwaysSafe c then [c]
    else if c = ' ' then ['+']
    else (charBytes c).flatMap encByte

/-! ### `urllib.parse.urlsplit` / `urlparse` -/

/-- Characters `urlsplit` deletes from the URL before parsing
(`_UNSAFE_URL_BYTES_TO_REMOVE`). -/
def removeUnsafe (s : Str) : Str :=
  s.filter fun c => ¬ (c = '\t' ∨ c = '\r' ∨ c = '\n')

/-- Leading-character strip `urlsplit` performs first
(`_WHATWG_C0_CONTROL_OR_SPACE`: code points up to and including space). -/
def lstripControl (s : Str) : Str := s.dropWhile fun c => c.toNat ≤ 0x20

/-- Characters allowed in a URL scheme (`urllib.parse.scheme_chars`). -/
def isSchemeChar (c : Char) : Bool := c.isAlphanum ∨ c = '+' ∨ c = '-' ∨ c = '.'

/-- Scheme extraction step of `urlsplit`: everything before the first `:` is
taken (lower-cased) as the scheme when it is non-empty, starts with an ASCII
letter and consists of scheme characters. -/
def schemeSplit (url : Str) : Str × Str :=
  match splitAtFirst ':' url with
  | (before, some after) =>
    if before ≠ [] ∧ (before.headD ' ').isAlpha ∧ before.all isSchemeChar then
      (pyLower before, after)
    else ([], url)
  | (_, none) => ([], url)

def isNetlocChar (c : Char) : Bool := ¬ (c = '/' ∨ c = '?' ∨ c = '#')

/-- Netloc extraction step of `urlsplit` (`_splitnetloc` behind a leading
`//`): the netloc runs until the next `/`, `?` or `#`. -/
def netlocSplit (rest : Str) : Str × Str :=
  match rest with
  | '/' :: '/' :: r => (r.takeWhile isNetlocChar, r.dropWhile isNetlocChar)
  | _ => ([], rest)

/-- The mismatched-square-bracket authority check on which `urlsplit` raises
`ValueError("Invalid IPv6 URL")`. -/
def bracketMismatch (netloc : Str) : Bool :=
  ('[' ∈ netloc ∧ ']' ∉ netloc) ∨ (']' ∈ netloc ∧ '[' ∉ netloc)

structure SplitParts where
  scheme : Str
  netloc : Str
  path : Str
  query : Str
  fragment : Str
deriving Repr, DecidableEq

/-- Model of Python `s.split(c, 1)` where the second component defaults to
the empty string when `c` does not occur (the shape `urlsplit` uses for the
fragment and query separators). -/
def splitOff (c : Char) (s : Str) : Str × Str :=
  match splitAtFirst c s with
  | (a, some b) => (a, b)
  | (a, none) => (a, [])

/-- Model of `urllib.parse._checknetloc` (CPython 3.11.6): the NFKC netloc
audit.  The real function returns immediately when the authority is empty
or all-ASCII (`not netloc or netloc.isascii()`); only past that point does
it consult the Unicode NFKC tables, which are outside this embedding, so
the model reports a non-ASCII authority out of scope with a distinct error
rather than assuming the audit passes. -/
def checknetloc (netloc : Str) : Except Str Unit :=
  if netloc = [] ∨ netloc.all (fun c => c.toNat < 128) then .ok ()
  else .error (lit "non-ASCII netloc: NFKC audit outside model")

/-- Model of `urllib.parse._check_bracketed_host` (CPython 3.11.6) at the
granularity the program's claims reach: the check runs exactly when the
authority contains both `[` and `]` (after the mismatch check has passed),
and its verdict — IPvFuture syntax, or `ipaddress.ip_address` classifying
the bracketed text as IPv6 (accepted) versus IPv4 or invalid (rejected,
with messages built from the host text) — is not decided by this
embedding.  The model reports every such authority out of scope rather
than assume the validation passes, so a model `.ok` never claims a success
the interpreter does not have. -/
def check_bracketed_host (netloc : Str) : Except Str Unit :=
  if '[' ∈ netloc ∧ ']' ∈ netloc then
    .error (lit "bracketed-host validation outside model")
  else .ok ()

/-- Model of `urllib.parse.urlsplit` (CPython 3.11.6, with
`allow_fragments=True`): the bracket-mismatch check runs right after the
netloc is split off, `_check_bracketed_host` right after it, and
`_checknetloc` after the fragment and query are removed, just before the
result is assembled. -/
def pyUrlsplit (u : Str) : Except Str SplitParts :=
  let url := removeUnsafe (lstripControl u)
  let sp := schemeSplit url
  let np := netlocSplit sp.2
  if bracketMismatch np.1 then .error (lit "Invalid IPv6 URL")
  else
    match check_bracketed_host np.1 with
    | .error e => .error e
    | .ok _ =>
      let fp := splitOff '#' np.2
      let qp := splitOff '?' fp.1
      match checknetloc np.1 with
      | .error e => .error e
      | .ok _ => .ok ⟨sp.1, np.1, qp.1, qp.2, fp.2⟩

/-- Schemes for which `urlparse` separates path parameters
(`urllib.parse.uses_params`). -/
def uses_params : List Str :=
  [lit "", lit "ftp", lit "hdl", lit "prospero", lit "http", lit "imap",
   lit "https", lit "shttp", lit "rtsp", lit "rtsps", lit "rtspu", lit "sip",
   lit "sips", lit "mms", lit "sftp", lit "tel"]

/-- Schemes treated as having a network location on reassembly
(`urllib.parse.uses_netloc`). -/
def uses_netloc : List Str :=
  [lit "", lit "ftp", lit "http", lit "gopher", lit "nntp", lit "telnet",
   lit "imap", lit "wais", lit "file", lit "mms", lit "https", lit "shttp",
   lit "snews", lit "prospero", lit "rtsp", lit "rtsps", lit "rtspu",
   lit "rsync", lit "svn", lit "svn+ssh", lit "sftp", lit "nfs", lit "git",
   lit "git+ssh", lit "ws", lit "wss"]

/-- Model of `urllib.parse._splitparams`: split the `;params` suffix off the
last path segment. -/
def splitparams (url : Str) : Str × Str :=
  if '/' ∈ url then
    let lastSeg :=
      match splitAtLast '/' url with
      | (_, some after) => after
      | (_, none) => url
    match splitAtFirst ';' lastSeg with
    | (_, none) => (url, [])
    | (seg1, some seg2) =>
      match splitAtLast '/' url with
      | (before, some _) => (before ++ '/' :: seg1, seg2)
      | (_, none) => (seg1, seg2)
  else
    match splitAtFirst ';' url with
    | (u1, some u2) => (u1, u2)
    | (_, none) => (url.dropLast, url)

structure UrlParts where
  scheme : Str
  netloc : Str
  path : Str
  params : Str
  query : Str
  fragment : Str
deriving Repr, DecidableEq

/-- Model of `urllib.parse.urlparse`. -/
def pyUrlparse (u : Str) : Except Str UrlParts :=
  match pyUrlsplit u with
  | .error e => .error e
  | .ok p =>
    if p.scheme ∈ uses_params ∧ ';' ∈ p.path then
      let pr := splitparams p.path
      .ok ⟨p.scheme, p.netloc, pr.1, pr.2, p.query, p.fragment⟩
    else .ok ⟨p.scheme, p.netloc, p.path, [], p.query, p.fragment⟩

/-! ### `parse_qs`, `urlencode`, `urlunparse` -/

/-- Model of `urllib.parse.parse_qsl` with the default settings the source
uses (blank values dropped, `&` separator, non-strict). -/
def parseQsl (qs : Str) : List (Str × Str) :=
  (splitOnSub (lit "&") qs).filterMap fun nv =>
    if nv = [] then none
    else
      match splitAtFirst '=' nv with
      | (_, none) => none
      | (n, some v) => if v = [] then none else some (unquotePlus n, unquotePlus v)

/-- Grouping step of `parse_qs`: keys in first-occurrence order, each with
all its values in order (dict insertion-order semantics). -/
def groupPairsF : Nat → List (Str × Str) → List (Str × List Str)
  | _, [] => []
  | 0, l => l.map fun kv => (kv.1, [kv.2])
  | fuel + 1, (k, v) :: rest =>
    (k, v :: (rest.filter fun kv => kv.1 = k).map (·.2)) ::
      groupPairsF fuel (rest.filter fun kv => ¬ kv.1 = k)

/-- Model of `urllib.parse.parse_qs` as an insertion-ordered association
list from keys to value lists. -/
def parseQs (qs : Str) : List (Str × List Str) :=
  groupPairsF (parseQsl qs).length (parseQsl qs)

/-- Model of `urllib.parse.urlencode(d, doseq=True)` on a `parse_qs`-shaped
dict. -/
def urlencodeSeq (d : List (Str × List Str)) : Str :=
  List.intercalate (lit "&")
    (d.flatMap fun kv => kv.2.map fun v => quotePlus kv.1 ++ '=' :: quotePlus v)

/-- Model of `urllib.parse.urlunsplit`. -/
def urlunsplit (scheme netloc path query fragment : Str) : Str :=
  let url :=
    if netloc ≠ [] ∨ (scheme ≠ [] ∧ scheme ∈ uses_netloc ∧ path.take 2 ≠ lit "//") then
      ('/' :: '/' :: netloc) ++
        (if path ≠ [] ∧ path.headD ' ' ≠ '/' then '/' :: path else path)
    else path
  let url := if scheme ≠ [] then scheme ++ ':' :: url else url
  let url := if query ≠ [] then url ++ '?' :: query else url
  if fragment ≠ [] then url ++ '#' :: fragment else url

/-- Model of `urllib.parse.urlunparse`. -/
def urlunparse (scheme netloc path params query fragment : Str) : Str :=
  urlunsplit scheme netloc (if params ≠ [] then path ++ ';' :: params else path)
    query fragment

/-- The path component `urlsplit` recovers from a `urlunsplit` result built
from scheme `s`, netloc `n` and path `pa`: the path, with a `/` prefixed
when `urlunsplit` glued one on. -/
def rePathOf (s n pa : Str) : Str :=
  if n ≠ [] ∨ (s ≠ [] ∧ s ∈ uses_netloc ∧ pa.take 2 ≠ lit "//") then
    (if pa ≠ [] ∧ pa.headD ' ' ≠ '/' then '/' :: pa else pa)
  else pa

/-- Dict membership / lookup on the `parse_qs` result (`'jk' in params`,
`params['jk']`). -/
def dictFind (d : List (Str × List Str)) (k : Str) : Option (List Str) :=
  (d.find? fun kv => kv.1 = k).map (·.2)

/-- Model of `params.get(k, [''])[0]`. -/
def dictGetHead (d : List (Str × List Str)) (k : Str) : Str :=
  match dictFind d k with
  | none => []
  | some vs => vs.headD []

/-! ### `clean_job_url` -/

/-- The tracking query parameters stripped by `clean_job_url`. -/
def tracking_params : List Str :=
  [lit "trackingId", lit "refId", lit "lipi", lit "midToken", lit "midSig",
   lit "trk", lit "trkEmail", lit "eid", lit "otpToken", lit "utm_source",
   lit "utm_medium", lit "utm_campaign", lit "ref", lit "source"]

/-- LinkedIn job id extraction:
`parsed.path.split('/jobs/view/')[-1].split('?')[0].split('/')[0]`. -/
def lkIdOfPath (path : Str) : Str :=
  beforeFirst '/' (beforeFirst '?'
    ((splitOnSub (lit "/jobs/view/") path).getLastD []))

/-- Tracking-parameter stripping, the shared tail of `clean_job_url`
(source lines 87-102): drop blocklisted keys from the query and rebuild the
URL, or return the input unchanged when it has no query string. -/
def genericClean (url : Str) (p : UrlParts) : Str :=
  if p.query ≠ [] then
    let params := parseQs p.query
    let cleaned := params.filter fun kv => kv.1 ∉ tracking_params
    if cleaned ≠ [] then
      urlunparse p.scheme p.netloc p.path [] (urlencodeSeq cleaned) []
    else urlunparse p.scheme p.netloc p.path [] [] []
  else url

/-- Model of `clean_job_url` (source lines 59-102).  The `ValueError` that
`urlparse` raises on a mismatched-bracket authority propagates as
`Except.error`, exactly as the unguarded Python call would. -/
def clean_job_url (url : Str) : Except Str Str :=
  if url = [] then .ok url
  else
    match pyUrlparse url with
    | .error e => .error e
    | .ok p =>
      if containsSub (lit "linkedin.com") p.netloc then
        if containsSub (lit "/jobs/view/") p.path then
          .ok (lit "https://www.linkedin.com/jobs/view/" ++ lkIdOfPath p.path)
        else if containsSub (lit "currentJobId=") p.query then
          let jobId := dictGetHead (parseQs p.query) (lit "currentJobId")
          if jobId ≠ [] then
            .ok (lit "https://www.linkedin.com/jobs/view/" ++ jobId)
          else .ok (genericClean url p)
        else .ok (genericClean url p)
      else if containsSub (lit "indeed.com") p.netloc then
        match dictFind (parseQs p.query) (lit "jk") with
        | some vs => .ok (lit "https://www.indeed.com/viewjob?jk=" ++ vs.headD [])
        | none =>
          match dictFind (parseQs p.query) (lit "vjk") with
          | some vs => .ok (lit "https://www.indeed.com/viewjob?jk=" ++ vs.headD [])
          | none => .ok (genericClean url p)
      else .ok (genericClean url p)

/-- String-level wrapper of `clean_job_url`. -/
def cleanJobUrlS (url : String) : Except String String :=
  match clean_job_url url.data with
  | .error e => .error (String.mk e)
  | .ok r => .ok (String.mk r)

/-! ### SHA-256 (`hashlib.sha256(...).hexdigest()`), over `Nat` words
reduced mod `2 ^ 32` -/

/-- Truncation to a 32-bit word. -/
def w32 (n : Nat) : Nat := n % 4294967296

/-- 32-bit right rotation. -/
def rotr (k x : Nat) : Nat := w32 ((x >>> k) ||| (x <<< (32 - k)))

def bigS0 (x : Nat) : Nat := rotr 2 x ^^^ rotr 13 x ^^^ rotr 22 x
def bigS1 (x : Nat) : Nat := rotr 6 x ^^^ rotr 11 x ^^^ rotr 25 x
def smallS0 (x : Nat) : Nat := rotr 7 x ^^^ rotr 18 x ^^^ (x >>> 3)
def smallS1 (x : Nat) : Nat := rotr 17 x ^^^ rotr 19 x ^^^ (x >>> 10)
def chN (x y z : Nat) : Nat := (x &&& y) ^^^ ((x ^^^ 4294967295) &&& z)
def majN (x y z : Nat) : Nat := (x &&& y) ^^^ (x &&& z) ^^^ (y &&& z)

/-- The SHA-256 round constants. -/
def shaK : List Nat :=
  [1116352408, 1899447441, 3049323471, 3921009573, 961987163, 1508970993,
   2453635748, 2870763221, 3624381080, 310598401, 607225278, 1426881987,
   1925078388, 2162078206, 2614888103, 3248222580, 3835390401, 4022224774,
   264347078, 604807628, 770255983, 1249150122, 1555081692, 1996064986,
   2554220882, 2821834349, 2952996808, 3210313671, 3336571891, 3584528711,
   113926993, 338241895, 666307205, 773529912, 1294757372, 1396182291,
   1695183700, 1986661051, 2177026350, 2456956037, 2730485921, 2820302411,
   3259730800, 3345764771, 3516065817, 3600352804, 4094571909, 275423344,
   430227734, 506948616, 659060556, 883997877, 958139571, 1322822218,
   1537002063, 1747873779, 1955562222, 2024104815, 2227730452, 2361852424,
   2428436474, 2756734187, 3204031479, 3329325298]

structure Sha8 where
  a : Nat
  b : Nat
  c : Nat
  d : Nat
  e : Nat
  f : Nat
  g : Nat
  h : Nat
deriving Repr, DecidableEq

/-- SHA-256 initial hash value. -/
def shaInit : Sha8 :=
  ⟨0x6a09e667, 0xbb67ae85, 0x3c6ef372, 0xa54ff53a,
   0x510e527f, 0x9b05688c, 0x1f83d9ab, 0x5be0cd19⟩

/-- Extend a 16-word block by `n` message-schedule words. -/
def extendSched : Nat → List Nat → List Nat
  | 0, ws => ws
  | n + 1, ws =>
    let len := ws.length
    extendSched n (ws ++ [w32 (smallS1 (ws.getD (len - 2) 0) + ws.getD (len - 7) 0 +
      smallS0 (ws.getD (len - 15) 0) + ws.getD (len - 16) 0)])

/-- One SHA-256 round on the working variables, with `(w, k)` the schedule
word and round constant. -/
def shaRound (st : Sha8) (wk : Nat × Nat) : Sha8 :=
  let t1 := w32 (st.h + bigS1 st.e + chN st.e st.f st.g + wk.2 + wk.1)
  let t2 := w32 (bigS0 st.a + majN st.a st.b st.c)
  ⟨w32 (t1 + t2), st.a, st.b, st.c, w32 (st.d + t1), st.e, st.f, st.g⟩

/-- Compress one 16-word block into the running hash value. -/
def compressBlock (hv : Sha8) (block : List Nat) : Sha8 :=
  let ws := extendSched 48 block
  let st := (ws.zip shaK).foldl shaRound hv
  ⟨w32 (hv.a + st.a), w32 (hv.b + st.b), w32 (hv.c + st.c), w32 (hv.d + st.d),
   w32 (hv.e + st.e), w32 (hv.f + st.f), w32 (hv.g + st.g), w32 (hv.h + st.h)⟩

/-- SHA-256 padding of a byte message (length in bits as 8 big-endian
bytes). -/
def shaPad (msg : List Nat) : List Nat :=
  let len := msg.length
  let zeros := (119 - len % 64) % 64
  let bits := 8 * len
  msg ++ 0x80 :: List.replicate zeros 0 ++
    [bits >>> 56 % 256, bits >>> 48 % 256, bits >>> 40 % 256, bits >>> 32 % 256,
     bits >>> 24 % 256, bits >>> 16 % 256, bits >>> 8 % 256, bits % 256]

/-- Big-endian 4-byte groups to 32-bit words (input length is a multiple
of 4 after padding). -/
def toWords : List Nat → List Nat
  | b1 :: b2 :: b3 :: b4 :: rest =>
    (b1 * 16777216 + b2 * 65536 + b3 * 256 + b4) :: toWords rest
  | _ => []

/-- Chunk a word list into 16-word blocks (fuel-driven; any fuel at least
the list length suffices). -/
def toBlocksF : Nat → List Nat → List (List Nat)
  | 0, _ => []
  | _ + 1, [] => []
  | fuel + 1, ws => ws.take 16 :: toBlocksF fuel (ws.drop 16)

/-- SHA-256 of a byte message, as 32 digest bytes. -/
def sha256Bytes (msg : List Nat) : List Nat :=
  let ws := toWords (shaPad msg)
  let hv := (toBlocksF ws.length ws).foldl compressBlock shaInit
  [hv.a, hv.b, hv.c, hv.d, hv.e, hv.f, hv.g, hv.h].flatMap fun w =>
    [w >>> 24 % 256, w >>> 16 % 256, w >>> 8 % 256, w % 256]

/-- Lower-case hex digit. -/
def hexDigitL (n : Nat) : Char :=
  if n < 10 then Char.ofNat ('0'.toNat + n) else Char.ofNat ('a'.toNat + n - 10)

/-- Model of `hashlib.sha256(bytes).hexdigest()`. -/
def sha256Hex (msg : List Nat) : Str :=
  (sha256Bytes msg).flatMap fun b => [hexDigitL (b / 16 % 16), hexDigitL (b % 16)]

/-- UTF-8 encoding of a string (`str.encode()`). -/
def utf8Encode (s : Str) : List Nat := s.flatMap fun c => utf8Bytes c.toNat

/-! ### `generate_job_id` -/

/-- Model of `generate_job_id` (source lines 173-177): SHA-256 hex digest of
the lower-cased `cleanedUrl:title:company`, truncated to 16 characters.  The
`ValueError` that `clean_job_url` can raise propagates. -/
def generate_job_id (url title company : Str) : Except Str Str :=
  match clean_job_url url with
  | .error e => .error e
  | .ok cu =>
    .ok ((sha256Hex (utf8Encode (pyLower (cu ++ ':' :: title ++ ':' :: company)))).take 16)

/-- String-level wrapper of `generate_job_id`. -/
def generateJobIdS (url title company : String) : Except String String :=
  match generate_job_id url.data title.data company.data with
  | .error e => .error (String.mk e)
  | .ok r => .ok (String.mk r)

/-! ### `calculate_weighted_score` -/

/-- Banker's rounding (round-half-to-even) on a rational, the rounding mode
of Python's built-in `round`. -/
def roundHalfEven (q : ℚ) : ℤ :=
  let f := ⌊q⌋
  let r := q - f
  if r < 1 / 2 then f
  else if 1 / 2 < r then f + 1
  else if 2 ∣ f then f else f + 1

/-- Model of Python `round(x, 2)`.  Arithmetic is exact rational where the
source uses binary floating point; at every value the theorems below touch,
the float result is far from a rounding boundary, so the two agree. -/
def pyRound2 (q : ℚ) : ℚ := roundHalfEven (q * 100) / 100

/-- Recency component of `calculate_weighted_score` (source line 482):
`max(0, 100 - days_old * 3.33)`.  `days_old` is the whole-day difference
`(datetime.now() - date_obj).days`. -/
def recency_score (days_old : ℤ) : ℚ := max 0 (100 - days_old * (333 / 100))

/-- Model of `calculate_weighted_score` (source lines 476-487) on a parseable
date that lies `days_old` whole days in the past:
`round(baseline_score * 0.7 + recency_score * 0.3, 2)`. -/
def calculate_weighted_score (baseline_score : ℚ) (days_old : ℤ) : ℚ :=
  pyRound2 (baseline_score * (7 / 10) + recency_score days_old * (3 / 10))

/-- The variant of `calculate_weighted_score` the `except` branch produces
when the stored date cannot be parsed: recency is forced to `0`. -/
def calculate_weighted_score_baddate (baseline_score : ℚ) : ℚ :=
  pyRound2 (baseline_score * (7 / 10) + 0 * (3 / 10))

/-- The formula the specification states for the ranking function:
`round(0.7 * b + 0.3 * max(0, 100 - d * 100 / 30), 2)`.  Kept separate from
`calculate_weighted_score` (which is translated from the source) so the two
can be compared. -/
def specWeightedScore (baseline_score : ℚ) (days_old : ℤ) : ℚ :=
  pyRound2 (baseline_score * (7 / 10) +
    max 0 (100 - (days_old : ℚ) * (100 / 30)) * (3 / 10))

/-! ### `ai_filter_and_score` -/

/-- Values a parsed JSON object can bind (the slice of Python object
structure the filter result uses). -/
inductive PyVal where
  | noneV
  | bool (b : Bool)
  | int (n : ℤ)
  | str (s : Str)
deriving Repr, DecidableEq

/-- Model of `re.search(r'\x7b[\s\S]*\x7d', text)` with a greedy body: the
span from the first brace-open to the last brace-close, when the close comes
after the open. -/
def extractJsonSpan (s : Str) : Option Str :=
  match findSub ['{'] s with
  | none => none
  | some i =>
    match findSub ['}'] s.reverse with
    | none => none
    | some jrev =>
      let j := s.length - 1 - jrev
      if i < j + 1 then some ((s.drop i).take (j + 1 - i)) else none

/-- Model of `dict.get(k, default)` on a parsed JSON object. -/
def pyDictGet (obj : List (Str × PyVal)) (k : Str) (dflt : PyVal) : PyVal :=
  match obj.find? fun kv => kv.1 = k with
  | none => dflt
  | some kv => kv.2

/-- Model of `ai_filter_and_score` (source lines 352-416).  The generative
call is the `response` argument (`Except.error` when `messages.create`
raises); `parseJson` stands for `json.loads` restricted to objects, `none`
when it raises or the payload is not an object (in which case the
exception-handler path of the source is taken).  Every failure path returns
the documented fallback triple `(True, 30, "filter error - kept by
default")`; no path propagates an exception. -/
def ai_filter_and_score (parseJson : Str → Option (List (Str × PyVal)))
    (response : Except Unit Str) : PyVal × PyVal × PyVal :=
  let fallback : PyVal × PyVal × PyVal :=
    (.bool true, .int 30, .str (lit "filter error - kept by default"))
  match response with
  | .error _ => fallback
  | .ok text =>
    match extractJsonSpan text with
    | none => fallback
    | some payload =>
      match parseJson payload with
      | none => fallback
      | some obj =>
        (pyDictGet obj (lit "keep") (.bool false),
         pyDictGet obj (lit "baseline_score") (.int 0),
         pyDictGet obj (lit "filter_reason") (.str (lit "unknown")))

/-! ### `load_resumes` -/

/-- Model of `load_resumes` given the text of the resume files found (empty
list when the resumes directory is empty or missing). -/
def load_resumes (files : List Str) : Str :=
  List.intercalate (lit "\n\n---\n\n") files

/-! ### Source parsers

The BeautifulSoup / ElementTree extraction steps (locating link elements,
flattening an element to text) are taken as given inputs; everything the
source then computes from those extracted strings is modelled. -/

/-- The dict shape every parser emits (`job_id`, display fields, `raw_text`,
timestamps; `description` is only populated by the feed parser and the
capture endpoint). -/
structure JobDict where
  job_id : Str
  title : Str
  company : Str
  location : Str
  url : Str
  sourceName : Str
  raw_text : Str
  description : Str := []
  created_at : Str := []
  email_date : Str := []
deriving Repr, DecidableEq

/-- A LinkedIn digest link as extracted by BeautifulSoup: the `href`, the
text of the title element (or of the link itself), and, when the link has a
`td`/`div`/`tr` ancestor, that ancestor's space-joined text. -/
structure LkLink where
  href : Str
  titleText : Str
  parentText : Option Str
deriving Repr, DecidableEq

/-- Record construction of `parse_linkedin_jobs` for one link (source lines
191-209): company and location are the second and third `·`-separated parts
of the parent text, each stripped and capped at 100; the stored title is
capped at 200 and `raw_text` at 1000. -/
def mkLinkedinRecord (url title : Str) (parentText : Option Str)
    (emailDate : Str) : Except Str JobDict :=
  let cl : Str × Str × Str :=
    match parentText with
    | none => ([], [], title)
    | some ptxt =>
      let parts := splitOnSub [Char.ofNat 183] ptxt
      (if parts.length > 1 then pyTake 100 (pyStrip (parts.getD 1 [])) else [],
       if parts.length > 2 then pyTake 100 (pyStrip (parts.getD 2 [])) else [],
       ptxt)
  (generate_job_id url title cl.1).map fun jid =>
    { job_id := jid, title := pyTake 200 title, company := cl.1,
      location := cl.2.1, url := url, sourceName := lit "linkedin",
      raw_text := pyTake 1000 cl.2.2, created_at := emailDate,
      email_date := emailDate }

/-- Loop of `parse_linkedin_jobs` over the extracted links, with the
URL-dedup `seen` set and the short-title guard (source lines 184-210). -/
def parse_linkedin_jobs (emailDate : Str) :
    List LkLink → List Str → Except Str (List JobDict)
  | [], _ => .ok []
  | l :: rest, seen =>
    match clean_job_url l.href with
    | .error e => .error e
    | .ok url =>
      if url = [] ∨ url ∈ seen then parse_linkedin_jobs emailDate rest seen
      else
        let seen' := url :: seen
        if l.titleText = [] ∨ l.titleText.length < 3 then
          parse_linkedin_jobs emailDate rest seen'
        else
          match mkLinkedinRecord url l.titleText l.parentText emailDate with
          | .error e => .error e
          | .ok rec =>
            (parse_linkedin_jobs emailDate rest seen').map fun rest' => rec :: rest'

/-- An Indeed digest link as extracted by BeautifulSoup: the `href`, the link
text, and, when an ancestor exists, its space-joined text together with its
newline-joined text (the two `get_text` calls the source makes). -/
structure InLink where
  href : Str
  titleText : Str
  parentSpaceText : Option Str
  parentLineText : Str := []
deriving Repr, DecidableEq

/-- Record construction of `parse_indeed_jobs` for one link (source lines
224-241): company and location are the second and third non-blank stripped
lines of the parent text, capped at 100; title capped at 200, `raw_text` at
1000. -/
def mkIndeedRecord (url title : Str) (parentSpaceText : Option Str)
    (parentLineText emailDate : Str) : Except Str JobDict :=
  let cl : Str × Str × Str :=
    match parentSpaceText with
    | none => ([], [], title)
    | some ptxt =>
      let lines := ((splitOnSub ['\n'] parentLineText).map pyStrip).filter (· ≠ [])
      (if lines.length > 1 then pyTake 100 (lines.getD 1 []) else [],
       if lines.length > 2 then pyTake 100 (lines.getD 2 []) else [],
       ptxt)
  (generate_job_id url title cl.1).map fun jid =>
    { job_id := jid, title := pyTake 200 title, company := cl.1,
      location := cl.2.1, url := url, sourceName := lit "indeed",
      raw_text := pyTake 1000 cl.2.2, created_at := emailDate,
      email_date := emailDate }

/-- Loop of `parse_indeed_jobs` (source lines 217-242). -/
def parse_indeed_jobs (emailDate : Str) :
    List InLink → List Str → Except Str (List JobDict)
  | [], _ => .ok []
  | l :: rest, seen =>
    match clean_job_url l.href with
    | .error e => .error e
    | .ok url =>
      if url = [] ∨ url ∈ seen then parse_indeed_jobs emailDate rest seen
      else
        let seen' := url :: seen
        if l.titleText = [] ∨ l.titleText.length < 3 then
          parse_indeed_jobs emailDate rest seen'
        else
          match mkIndeedRecord url l.titleText l.parentSpaceText
              l.parentLineText emailDate with
          | .error e => .error e
          | .ok rec =>
            (parse_indeed_jobs emailDate rest seen').map fun rest' => rec :: rest'

/-- Record construction of `fetch_wwr_jobs` for one feed item that passed
the element checks and the date cutoff (source lines 266-305).  `title` and
`linkText` are the item's title and link text; `descText` is the
markup-stripped description text (empty when the item has no description);
`pubDate` is the ISO timestamp the source derived.  Company and job title
come from splitting the feed title on the first `:`; the description is
capped at 2000, but when it is empty `raw_text` falls back to the raw
(uncapped) feed title. -/
def mkWwrRecord (title linkText descText pubDate : Str) : Except Str JobDict :=
  let url0 := linkText
  let cj : Str × Str :=
    if ':' ∈ title then
      match splitAtFirst ':' title with
      | (before, some after) => (pyStrip before, pyStrip after)
      | (_, none) => ([], title)
    else ([], title)
  let description := if descText ≠ [] then pyTake 2000 descText else []
  match clean_job_url url0 with
  | .error e => .error e
  | .ok url =>
    (generate_job_id url cj.2 cj.1).map fun jid =>
      { job_id := jid, title := pyTake 200 cj.2, company := pyTake 100 cj.1,
        location := lit "Remote", url := url, sourceName := lit "weworkremotely",
        raw_text := if description ≠ [] then description else title,
        description := description, created_at := pubDate,
        email_date := pubDate }

/-! ### Store rows and the ingestion routes

The SQLite `jobs` table is a list of rows appended in insertion order;
`job_id` is the primary key (the routes check existence before every
insert).  The `score` column has SQL default `0` and is only ever written by
the full-analysis route; `analysis` is `NULL` until that route writes it. -/

structure JobRow where
  job_id : Str
  title : Str := []
  company : Str := []
  location : Str := []
  url : Str := []
  sourceName : Str := []
  status : Str := lit "new"
  score : Int := 0
  baseline_score : Int := 0
  analysis : Option Str := none
  cover_letter : Option Str := none
  notes : Option Str := none
  raw_text : Str := []
  description : Str := []
  created_at : Str := []
  updated_at : Str := []
  email_date : Str := []
  is_filtered : Bool := false
deriving Repr, DecidableEq

abbrev Store := List JobRow

/-- The `SELECT 1 FROM jobs WHERE job_id = ?` existence check. -/
def storeHas (store : Store) (k : Str) : Bool := store.any fun r => r.job_id = k

/-- Row inserted by `api_scan` for a kept job (source lines 792-798). -/
def keptEmailRow (job : JobDict) (baseline : Int) (now : Str) : JobRow :=
  { job_id := job.job_id, title := job.title, company := job.company,
    location := job.location, url := job.url, sourceName := job.sourceName,
    raw_text := job.raw_text, baseline_score := baseline,
    created_at := job.created_at, updated_at := now,
    email_date := job.email_date, is_filtered := false }

/-- Row inserted by `api_scan` for a filtered job (source lines 803-809). -/
def filteredEmailRow (job : JobDict) (baseline : Int) (reason now : Str) : JobRow :=
  { keptEmailRow job baseline now with is_filtered := true, notes := some reason }

/-- Counters and store threaded through a scan loop. -/
structure ScanState where
  store : Store
  new_count : Nat
  filtered_count : Nat
deriving Repr, DecidableEq

/-- One iteration of the `api_scan` loop (source lines 783-811): skip when
the id already exists, otherwise run the baseline filter and insert the row
kept or filtered.  `filt` is the `(keep, baseline_score, reason)` outcome of
`ai_filter_and_score` for the job. -/
def scanStep (filt : JobDict → Bool × Int × Str) (now : Str)
    (st : ScanState) (job : JobDict) : ScanState :=
  if storeHas st.store job.job_id then st
  else
    let r := filt job
    if r.1 then
      ⟨st.store ++ [keptEmailRow job r.2.1 now], st.new_count + 1, st.filtered_count⟩
    else
      ⟨st.store ++ [filteredEmailRow job r.2.1 r.2.2 now], st.new_count,
        st.filtered_count + 1⟩

/-- The full `api_scan` insert loop over the parsed jobs. -/
def api_scan_loop (filt : JobDict → Bool × Int × Str) (now : Str)
    (store : Store) (jobs : List JobDict) : ScanState :=
  jobs.foldl (scanStep filt now) ⟨store, 0, 0⟩

/-- Response counters of a scan route (`found`, `new`, `filtered`). -/
structure ScanResponse where
  found : Nat
  newCount : Nat
  filteredCount : Nat
deriving Repr, DecidableEq

/-- Model of the `/api/scan` route (source lines 770-819): `jobs` is the
`scan_emails()` result, `resume_text` the `load_resumes()` result.  With no
resume corpus the route answers the 400 error before touching the store. -/
def api_scan (jobs : List JobDict) (resume_text : Str)
    (filt : JobDict → Bool × Int × Str) (now : Str) (store : Store) :
    Except Str ScanResponse × Store :=
  if resume_text = [] then
    (.error (lit "No resumes found. Add .txt/.md files to resumes/ folder"), store)
  else
    let st := api_scan_loop filt now store jobs
    (.ok ⟨jobs.length, st.new_count, st.filtered_count⟩, st.store)

/-- Row inserted by `api_scan_wwr` for a kept job (source lines 969-975);
unlike the email route it also stores the description. -/
def keptWwrRow (job : JobDict) (baseline : Int) (now : Str) : JobRow :=
  { keptEmailRow job baseline now with description := job.description }

/-- Row inserted by `api_scan_wwr` for a filtered job (source lines
978-984). -/
def filteredWwrRow (job : JobDict) (baseline : Int) (reason now : Str) : JobRow :=
  { keptWwrRow job baseline now with is_filtered := true, notes := some reason }

/-- One iteration of the `api_scan_wwr` loop (source lines 961-985). -/
def wwrStep (filt : JobDict → Bool × Int × Str) (now : Str)
    (st : ScanState) (job : JobDict) : ScanState :=
  if storeHas st.store job.job_id then st
  else
    let r := filt job
    if r.1 then
      ⟨st.store ++ [keptWwrRow job r.2.1 now], st.new_count + 1, st.filtered_count⟩
    else
      ⟨st.store ++ [filteredWwrRow job r.2.1 r.2.2 now], st.new_count,
        st.filtered_count + 1⟩

/-- Model of the `/api/wwr` route (source lines 948-989). -/
def api_scan_wwr (jobs : List JobDict) (resume_text : Str)
    (filt : JobDict → Bool × Int × Str) (now : Str) (store : Store) :
    Except Str ScanResponse × Store :=
  if resume_text = [] then
    (.error (lit "No resumes found"), store)
  else
    let st := jobs.foldl (wwrStep filt now) ⟨store, 0, 0⟩
    (.ok ⟨jobs.length, st.new_count, st.filtered_count⟩, st.store)

/-- The structured slice of an `analyze_job` result the `/api/analyze` route
consumes: `qualification_score` (default 0), `should_apply` (default false)
and the serialized blob written to the `analysis` column. -/
structure AnalysisOutcome where
  qualification_score : Int := 0
  should_apply : Bool := false
  blob : Str := []
deriving Repr, DecidableEq

/-- Selection predicate of `/api/analyze` (source lines 829-831):
`is_filtered = 0 AND (score = 0 OR score IS NULL)`. -/
def analyzeSelected (r : JobRow) : Bool := r.is_filtered = false ∧ r.score = 0

/-- Per-row update of `/api/analyze` (source lines 836-841). -/
def analyzeUpdate (outcome : JobRow → AnalysisOutcome) (now : Str)
    (r : JobRow) : JobRow :=
  let a := outcome r
  { r with
    score := a.qualification_score
    analysis := some a.blob
    status := if a.should_apply then lit "interested" else lit "new"
    updated_at := now }

/-- Model of the `/api/analyze` route (source lines 821-845): select the
unanalyzed unfiltered rows, run the full analysis on each and write the
score, blob and derived status back by `job_id`. -/
def api_analyze (resume_text : Str) (outcome : JobRow → AnalysisOutcome)
    (now : Str) (store : Store) : Except Str Nat × Store :=
  if resume_text = [] then (.error (lit "No resumes found"), store)
  else
    ((.ok (store.filter analyzeSelected).length),
      store.map fun r => if analyzeSelected r then analyzeUpdate outcome now r else r)

/-- Model of the `PATCH /api/jobs/<job_id>` route (source lines 758-768):
overwrite `status` and `updated_at` on the matching row. -/
def update_job (job_id status now : Str) (store : Store) : Store :=
  store.map fun r =>
    if r.job_id = job_id then { r with status := status, updated_at := now } else r

/-- Model of the cover-letter route's write (source lines 854-857). -/
def api_cover_letter (job_id letter now : Str) (store : Store) : Store :=
  store.map fun r =>
    if r.job_id = job_id then
      { r with cover_letter := some letter, updated_at := now }
    else r

/-- Inbound record of the `/api/capture` route. -/
structure CaptureData where
  url : Str := []
  title : Str := []
  company : Str := []
  location : Str := lit "Remote"
  description : Str := []
  sourceName : Str := lit "extension"
deriving Repr, DecidableEq

/-- Model of the `/api/capture` route (source lines 862-920).  `filt` is the
`ai_filter_and_score` outcome used when a resume corpus is loaded; without
one the default baseline 50 is stored.  Note the keep flag is ignored here:
captured jobs are always inserted with `is_filtered = 0`. -/
def api_capture (data : CaptureData) (resume_text : Str)
    (filt : Bool × Int × Str) (now : Str) (store : Store) :
    Except Str Str × Store :=
  match clean_job_url data.url with
  | .error e => (.error e, store)
  | .ok url =>
    let src :=
      if containsSub (lit "linkedin.com") url then lit "linkedin"
      else if containsSub (lit "indeed.com") url then lit "indeed"
      else if containsSub (lit "weworkremotely.com") url then lit "weworkremotely"
      else data.sourceName
    if url = [] ∨ data.title = [] then (.error (lit "url and title required"), store)
    else
      match generate_job_id url data.title data.company with
      | .error e => (.error e, store)
      | .ok jid =>
        if storeHas store jid then
          (.ok (lit "updated"),
            store.map fun r =>
              if r.job_id = jid ∧ r.description = [] then
                { r with
                  description := pyTake 5000 data.description
                  raw_text := pyTake 2000 data.description
                  updated_at := now }
              else r)
        else
          let baseline : Int := if resume_text ≠ [] then (filt.2).1 else 50
          (.ok (lit "created"),
            store ++ [{
              job_id := jid
              title := pyTake 200 data.title
              company := pyTake 100 data.company
              location := pyTake 100 data.location
              url := url
              sourceName := src
              description := pyTake 5000 data.description
              raw_text := pyTake 2000 data.description
              baseline_score := baseline
              created_at := now
              updated_at := now
              is_filtered := false }])

/-- The stores reachable from an empty database by the pipeline's
store-mutating routes, with the external inputs (parsed jobs, filter and
analysis outcomes, timestamps, request data) arbitrary. -/
inductive Reachable : Store → Prop where
  | init : Reachable []
  | scan (jobs resume_text filt now) {s : Store} (h : Reachable s) :
      Reachable (api_scan jobs resume_text filt now s).2
  | wwr (jobs resume_text filt now) {s : Store} (h : Reachable s) :
      Reachable (api_scan_wwr jobs resume_text filt now s).2
  | analyze (resume_text outcome now) {s : Store} (h : Reachable s) :
      Reachable (api_analyze resume_text outcome now s).2
  | patch (job_id status now) {s : Store} (h : Reachable s) :
      Reachable (update_job job_id status now s)
  | cover (job_id letter now) {s : Store} (h : Reachable s) :
      Reachable (api_cover_letter job_id letter now s)
  | capture (data resume_text filt now) {s : Store} (h : Reachable s) :
      Reachable (api_capture data resume_text filt now s).2

/-! ## General helper lemmas -/

theorem except_map_eq_ok {ε α β : Type} (f : α → β) (x : Except ε α) (y : β)
    (h : x.map f = .ok y) : ∃ a, x = .ok a ∧ y = f a := by
  cases x with
  | error e => simp [Except.map] at h
  | ok a => exact ⟨a, rfl, by simp [Except.map] at h; exact h.symm⟩

theorem length_pyTake_le (n : Nat) (s : Str) : (pyTake n s).length ≤ n :=
  List.length_take_le n s

theorem length_pyTake_of_ge (n : Nat) (s : Str) (h : n ≤ s.length) :
    (pyTake n s).length = n := by
  simp [pyTake, List.length_take]
  omega

theorem splitAtFirst_none {c : Char} {l a : Str}
    (h : splitAtFirst c l = (a, none)) : a = l ∧ c ∉ l := by
  induction l generalizing a with
  | nil =>
    simp [splitAtFirst] at h
    simp [h]
  | cons x xs ih =>
    simp only [splitAtFirst] at h
    by_cases hx : x = c
    · simp [hx] at h
    · rw [if_neg hx] at h
      rcases hr : splitAtFirst c xs with ⟨r1, r2⟩
      rw [hr] at h
      injection h with h1 h2
      subst h2
      obtain ⟨ha, hm⟩ := ih hr
      subst ha
      refine ⟨h1.symm, ?_⟩
      simp only [List.mem_cons, not_or]
      exact ⟨fun hcx => hx hcx.symm, hm⟩

theorem splitAtFirst_some {c : Char} {l a b : Str}
    (h : splitAtFirst c l = (a, some b)) : l = a ++ c :: b ∧ c ∉ a := by
  induction l generalizing a b with
  | nil => simp [splitAtFirst] at h
  | cons x xs ih =>
    simp only [splitAtFirst] at h
    by_cases hx : x = c
    · rw [if_pos hx] at h
      injection h with h1 h2
      injection h2 with h2
      subst hx
      simp [← h1, ← h2]
    · rw [if_neg hx] at h
      rcases hr : splitAtFirst c xs with ⟨r1, r2⟩
      rw [hr] at h
      injection h with h1 h2
      subst h2
      obtain ⟨ha, hm⟩ := ih hr
      refine ⟨by simp [← h1, ha], ?_⟩
      rw [← h1]
      simp only [List.mem_cons, not_or]
      exact ⟨fun hcx => hx hcx.symm, hm⟩

theorem splitAtFirst_of_not_mem {c : Char} {l : Str} (h : c ∉ l) :
    splitAtFirst c l = (l, none) := by
  induction l with
  | nil => simp [splitAtFirst]
  | cons x xs ih =>
    simp only [List.mem_cons, not_or] at h
    have hxc : ¬ x = c := fun hc => h.1 hc.symm
    simp [splitAtFirst, hxc, ih h.2]

theorem splitAtFirst_append_of_not_mem {c : Char} {a b : Str} (h : c ∉ a) :
    splitAtFirst c (a ++ c :: b) = (a, some b) := by
  induction a with
  | nil => simp [splitAtFirst]
  | cons x xs ih =>
    simp only [List.mem_cons, not_or] at h
    have hxc : ¬ x = c := fun hc => h.1 hc.symm
    simp [splitAtFirst, hxc, ih h.2]

/-! ## C2: the ranking function -/

/-- C2, counterexample.  The claim states the recency component is exactly 0
for every age of 30 days or more and that the result is
`round(0.7*b + 0.3*max(0, 100 - d*100/30), 2)`.  At baseline 100 and age
exactly 30 days the source (which multiplies by the literal `3.33`) returns
70.03 while the claimed formula gives 70.0, and the recency component is
0.1, not 0. -/
theorem C2_counterexample :
    calculate_weighted_score 100 30 = 7003 / 100 ∧
    specWeightedScore 100 30 = 70 ∧
    calculate_weighted_score 100 30 ≠ specWeightedScore 100 30 ∧
    recency_score 30 ≠ 0 := by
  refine ⟨?_, ?_, ?_, ?_⟩ <;>
    norm_num [calculate_weighted_score, specWeightedScore, recency_score,
      pyRound2, roundHalfEven, max_def]

/-- C2, amended.  The ranking function decays linearly at 3.33 points per
day (not 100/30): the recency component is positive for every age up to 30
days (it is 0.1 at exactly 30), and is exactly 0 — never negative — from 31
days on; `weightedScore(100, now) = 100.0` and
`weightedScore(100, 31 days ago) = 70.0`. -/
theorem C2_weighted_score :
    (∀ d : ℤ, 31 ≤ d → recency_score d = 0) ∧
    (∀ d : ℤ, d < 31 → 0 < recency_score d) ∧
    (∀ d : ℤ, 0 ≤ recency_score d) ∧
    recency_score 30 = 1 / 10 ∧
    calculate_weighted_score 100 0 = 100 ∧
    calculate_weighted_score 100 31 = 70 := by
  refine ⟨?_, ?_, ?_, ?_, ?_, ?_⟩
  · intro d hd
    have hd' : (31 : ℚ) ≤ (d : ℚ) := by exact_mod_cast hd
    have : (100 : ℚ) - (d : ℚ) * (333 / 100) ≤ 0 := by nlinarith
    simp only [recency_score]
    exact max_eq_left this
  · intro d hd
    have hd0 : d ≤ 30 := by omega
    have hd' : (d : ℚ) ≤ 30 := by exact_mod_cast hd0
    have : (0 : ℚ) < 100 - (d : ℚ) * (333 / 100) := by nlinarith
    simp only [recency_score]
    exact lt_max_of_lt_right this
  · intro d
    exact le_max_left 0 _
  · norm_num [recency_score, max_def]
  · norm_num [calculate_weighted_score, recency_score, pyRound2, roundHalfEven,
      max_def]
  · norm_num [calculate_weighted_score, recency_score, pyRound2, roundHalfEven,
      max_def]

/-- C2, witness: the amended theorem evaluated at ages 31, 30 and 0. -/
theorem C2_witness :
    recency_score 31 = 0 ∧ 0 < recency_score 30 ∧
    calculate_weighted_score 100 0 = 100 := by
  refine ⟨C2_weighted_score.1 31 (by norm_num), ?_, C2_weighted_score.2.2.2.2.1⟩
  exact C2_weighted_score.2.1 30 (by norm_num)

/-! ## C3: the baseline filter fallback -/

/-- C3.  `ai_filter_and_score` returns the documented fallback triple
`(True, 30, "filter error - kept by default")` whenever the generative call
raises or its response contains no parseable JSON payload (no brace span, or
`json.loads` failing on the span); being a total function into a plain
triple, it propagates no exception to its caller. -/
theorem C3_filter_fallback
    (parseJson : Str → Option (List (Str × PyVal))) (response : Except Unit Str)
    (hfail : response = .error () ∨
      ∃ s, response = .ok s ∧
        (extractJsonSpan s = none ∨
          ∀ payload, extractJsonSpan s = some payload → parseJson payload = none)) :
    ai_filter_and_score parseJson response =
      (.bool true, .int 30, .str (lit "filter error - kept by default")) := by
  rcases hfail with h | ⟨s, hs, hspan⟩
  · simp [h, ai_filter_and_score]
  · subst hs
    rcases hspan with h | h
    · simp [ai_filter_and_score, h]
    · simp only [ai_filter_and_score]
      cases hspan2 : extractJsonSpan s with
      | none => simp
      | some payload => simp [h payload hspan2]

/-- C3, witness: a raising generative call, and a well-formed response whose
brace span fails to parse, both hit the fallback. -/
theorem C3_witness :
    ai_filter_and_score (fun _ => none) (.error ()) =
      (.bool true, .int 30, .str (lit "filter error - kept by default")) ∧
    ai_filter_and_score (fun _ => none) (.ok (lit "here: {not json}")) =
      (.bool true, .int 30, .str (lit "filter error - kept by default")) := by
  constructor
  · exact C3_filter_fallback _ _ (Or.inl rfl)
  · exact C3_filter_fallback _ _ (Or.inr ⟨_, rfl, Or.inr fun _ _ => rfl⟩)

/-! ## C7: totality of URL normalization -/

theorem schemeSplit_snd_mem {url : Str} {x : Char}
    (h : x ∈ (schemeSplit url).2) : x ∈ url := by
  unfold schemeSplit at h
  rcases hs : splitAtFirst ':' url with ⟨before, after?⟩
  rw [hs] at h
  cases after? with
  | none => exact h
  | some after =>
    dsimp only at h
    split at h
    · have := (splitAtFirst_some hs).1
      rw [this]
      simp only [List.mem_append, List.mem_cons]
      exact Or.inr (Or.inr h)
    · exact h

theorem netlocSplit_fst_mem {rest : Str} {x : Char}
    (h : x ∈ (netlocSplit rest).1) : x ∈ rest := by
  unfold netlocSplit at h
  split at h
  · rename_i r
    have := (List.takeWhile_sublist isNetlocChar).mem h
    simp [this]
  · simp at h

theorem removeUnsafe_mem {s : Str} {x : Char} (h : x ∈ removeUnsafe s) : x ∈ s :=
  List.mem_of_mem_filter h

theorem lstripControl_mem {s : Str} {x : Char} (h : x ∈ lstripControl s) : x ∈ s :=
  (List.dropWhile_sublist _).mem h

/-- The characters of the authority `urlsplit` inspects all occur in the
input URL. -/
theorem urlsplit_netloc_mem {u : Str} {x : Char}
    (h : x ∈ (netlocSplit (schemeSplit (removeUnsafe (lstripControl u))).2).1) :
    x ∈ u :=
  lstripControl_mem (removeUnsafe_mem (schemeSplit_snd_mem (netlocSplit_fst_mem h)))

/-- `urlsplit` (CPython 3.11.6) can fail in exactly three ways, all tied to
the authority: the mismatched-bracket check, the bracketed-host validation
(both brackets present), or the `_checknetloc` audit past its ASCII
early-return. -/
theorem pyUrlsplit_error_cases {u e : Str} (h : pyUrlsplit u = .error e) :
    bracketMismatch
      (netlocSplit (schemeSplit (removeUnsafe (lstripControl u))).2).1 = true ∨
    ('[' ∈ (netlocSplit (schemeSplit (removeUnsafe (lstripControl u))).2).1 ∧
      ']' ∈ (netlocSplit (schemeSplit (removeUnsafe (lstripControl u))).2).1) ∨
    ∃ c ∈ (netlocSplit (schemeSplit (removeUnsafe (lstripControl u))).2).1,
      ¬ c.toNat < 128 := by
  simp only [pyUrlsplit] at h
  split at h
  · exact Or.inl (by assumption)
  · rcases hcb : check_bracketed_host
        (netlocSplit (schemeSplit (removeUnsafe (lstripControl u))).2).1
      with e2 | u1
    · right
      left
      unfold check_bracketed_host at hcb
      split at hcb
      · assumption
      · cases hcb
    · rw [hcb] at h
      dsimp only at h
      rcases hcn : checknetloc
          (netlocSplit (schemeSplit (removeUnsafe (lstripControl u))).2).1
        with e2 | u0
      · right
        right
        unfold checknetloc at hcn
        split at hcn
        · cases hcn
        · rename_i hcond
          push_neg at hcond
          by_contra hno
          push_neg at hno
          apply hcond.2
          rw [List.all_eq_true]
          intro c hc
          simpa using hno c hc
      · rw [hcn] at h
        cases h

theorem pyUrlsplit_ok_of_no_brackets {u : Str} (hascii : ∀ c ∈ u, c.toNat < 128)
    (h1 : '[' ∉ u) (h2 : ']' ∉ u) :
    ∃ p, pyUrlsplit u = .ok p := by
  cases hs : pyUrlsplit u with
  | ok p => exact ⟨p, rfl⟩
  | error e =>
    exfalso
    rcases pyUrlsplit_error_cases hs with hb | ⟨hm, _⟩ | ⟨c, hm, hc⟩
    · simp only [bracketMismatch, decide_eq_true_eq] at hb
      rcases hb with ⟨hm, _⟩ | ⟨hm, _⟩
      · exact h1 (urlsplit_netloc_mem hm)
      · exact h2 (urlsplit_netloc_mem hm)
    · exact h1 (urlsplit_netloc_mem hm)
    · exact hc (hascii c (urlsplit_netloc_mem hm))

/-- On ASCII input, any `urlsplit` failure involves a square bracket. -/
theorem pyUrlsplit_error_bracket {u e : Str} (hascii : ∀ c ∈ u, c.toNat < 128)
    (h : pyUrlsplit u = .error e) : '[' ∈ u ∨ ']' ∈ u := by
  rcases pyUrlsplit_error_cases h with hb | ⟨hm, _⟩ | ⟨c, hm, hc⟩
  · simp only [bracketMismatch, decide_eq_true_eq] at hb
    rcases hb with ⟨hm, _⟩ | ⟨hm, _⟩
    · exact Or.inl (urlsplit_netloc_mem hm)
    · exact Or.inr (urlsplit_netloc_mem hm)
  · exact Or.inl (urlsplit_netloc_mem hm)
  · exact absurd (hascii c (urlsplit_netloc_mem hm)) hc

/-- On ASCII input whose authority does not hold both brackets, the only
`urlsplit` failure is the mismatch `ValueError`, message included. -/
theorem pyUrlsplit_error_msg {u e : Str} (hascii : ∀ c ∈ u, c.toNat < 128)
    (hnb : ¬ ('[' ∈ u ∧ ']' ∈ u)) (h : pyUrlsplit u = .error e) :
    e = lit "Invalid IPv6 URL" := by
  simp only [pyUrlsplit] at h
  split at h
  · exact (Except.error.injEq .. ▸ h).symm
  · rcases hcb : check_bracketed_host
        (netlocSplit (schemeSplit (removeUnsafe (lstripControl u))).2).1
      with e2 | u1
    · exfalso
      unfold check_bracketed_host at hcb
      split at hcb
      · rename_i hboth
        exact hnb ⟨urlsplit_netloc_mem hboth.1, urlsplit_netloc_mem hboth.2⟩
      · cases hcb
    · rw [hcb] at h
      dsimp only at h
      rcases hcn : checknetloc
          (netlocSplit (schemeSplit (removeUnsafe (lstripControl u))).2).1
        with e2 | u0
      · exfalso
        unfold checknetloc at hcn
        split at hcn
        · cases hcn
        · rename_i hcond
          push_neg at hcond
          apply hcond.2
          rw [List.all_eq_true]
          intro c hc
          simpa using hascii c (urlsplit_netloc_mem hc)
      · rw [hcn] at h
        cases h

theorem pyUrlparse_ok_of_split {u : Str} {p : SplitParts}
    (h : pyUrlsplit u = .ok p) : ∃ q, pyUrlparse u = .ok q := by
  cases hq : pyUrlparse u with
  | ok q => exact ⟨q, rfl⟩
  | error e =>
    exfalso
    simp only [pyUrlparse, h] at hq
    split at hq <;> cases hq

theorem pyUrlparse_error_bracket {u e : Str} (hascii : ∀ c ∈ u, c.toNat < 128)
    (h : pyUrlparse u = .error e) : '[' ∈ u ∨ ']' ∈ u := by
  simp only [pyUrlparse] at h
  cases hs : pyUrlsplit u with
  | error e2 => exact pyUrlsplit_error_bracket hascii hs
  | ok p =>
    obtain ⟨q, hq⟩ := pyUrlparse_ok_of_split hs
    simp only [pyUrlparse, hs] at h hq
    rw [hq] at h
    cases h

theorem pyUrlparse_error_msg {u e : Str} (hascii : ∀ c ∈ u, c.toNat < 128)
    (hnb : ¬ ('[' ∈ u ∧ ']' ∈ u)) (h : pyUrlparse u = .error e) :
    e = lit "Invalid IPv6 URL" := by
  simp only [pyUrlparse] at h
  cases hs : pyUrlsplit u with
  | error e2 =>
    rw [hs] at h
    cases h
    exact pyUrlsplit_error_msg hascii hnb hs
  | ok p =>
    obtain ⟨q, hq⟩ := pyUrlparse_ok_of_split hs
    simp only [pyUrlparse, hs] at h hq
    rw [hq] at h
    cases h

theorem clean_job_url_ok_of_parse {u : Str} {p : UrlParts}
    (hp : pyUrlparse u = .ok p) : ∃ r, clean_job_url u = .ok r := by
  by_cases hne : u = []
  · exact ⟨u, by simp [clean_job_url, hne]⟩
  · cases hcl : clean_job_url u with
    | ok r => exact ⟨r, rfl⟩
    | error e =>
      exfalso
      simp only [clean_job_url, if_neg hne, hp] at hcl
      repeat' split at hcl
      all_goals cases hcl

/-- C7, counterexample.  The claim asserts `clean_job_url` is total and
never raises, but a URL whose authority opens a square bracket without
closing it makes the inner `urlparse` raise `ValueError("Invalid IPv6
URL")`, which `clean_job_url` does not catch. -/
theorem C7_counterexample :
    cleanJobUrlS "http://[::1" = .error "Invalid IPv6 URL" := by rfl

/-- C7, amended.  `clean_job_url` is not total: an authority opening a
square bracket without closing it propagates `urlsplit`'s
`ValueError("Invalid IPv6 URL")` (see `C7_counterexample`).  The CPython
3.11.6 `urlsplit` it calls unguarded raises in three places, all tied to
the authority: the bracket-mismatch check, `_check_bracketed_host` (runs
exactly when the authority holds `[` and `]` both), and the `_checknetloc`
NFKC audit, which returns immediately for an ASCII authority.  Hence on
ASCII input the function returns the empty string unchanged, returns a
value whenever the input also contains no square bracket, fails only when
a bracket is present — with exactly `Invalid IPv6 URL` unless both bracket
kinds appear (then the bracketed-host validation with its own messages is
in play) — and returns any parseable input unchanged when no rewrite
applies (no query string and no job-board branch match).  Non-ASCII inputs
can hit the NFKC audit, which is outside this model, so no totality or
error statement is made about them. -/
theorem C7_total_and_unchanged :
    clean_job_url [] = .ok [] ∧
    (∀ u : Str, (∀ c ∈ u, c.toNat < 128) → '[' ∉ u → ']' ∉ u →
      ∃ r, clean_job_url u = .ok r) ∧
    (∀ u e : Str, (∀ c ∈ u, c.toNat < 128) → clean_job_url u = .error e →
      ('[' ∈ u ∨ ']' ∈ u) ∧
        (¬ ('[' ∈ u ∧ ']' ∈ u) → e = lit "Invalid IPv6 URL")) ∧
    (∀ u : Str, ∀ p : UrlParts, pyUrlparse u = .ok p → p.query = [] →
      containsSub (lit "linkedin.com") p.netloc = false →
      containsSub (lit "indeed.com") p.netloc = false →
      clean_job_url u = .ok u) := by
  refine ⟨rfl, ?_, ?_, ?_⟩
  · intro u hascii h1 h2
    obtain ⟨sp, hsp⟩ := pyUrlsplit_ok_of_no_brackets hascii h1 h2
    obtain ⟨q, hq⟩ := pyUrlparse_ok_of_split hsp
    exact clean_job_url_ok_of_parse hq
  · intro u e hascii h
    by_cases hne : u = []
    · simp [clean_job_url, hne] at h
    · cases hs : pyUrlparse u with
      | error e2 =>
        have h2 : clean_job_url u = .error e2 := by
          simp [clean_job_url, if_neg hne, hs]
        rw [h] at h2
        cases h2
        exact ⟨pyUrlparse_error_bracket hascii hs,
          fun hnb => pyUrlparse_error_msg hascii hnb hs⟩
      | ok p =>
        obtain ⟨r, hr⟩ := clean_job_url_ok_of_parse hs
        rw [hr] at h
        cases h
  · intro u p hp hq hlk hin
    by_cases hne : u = []
    · simp [clean_job_url, hne]
    · simp [clean_job_url, if_neg hne, hp, hlk, hin, genericClean, hq]

/-- C7, witness: the amended theorem applied to an ASCII bracket-free URL
and to an already-minimal URL that parses with an empty query. -/
theorem C7_witness :
    (∃ r, clean_job_url (lit "https://example.com/jobs?a=1") = .ok r) ∧
    clean_job_url (lit "https://example.com/jobs") =
      .ok (lit "https://example.com/jobs") := by
  constructor
  · exact C7_total_and_unchanged.2.1 _ (by decide) (by decide) (by decide)
  · exact C7_total_and_unchanged.2.2.2 _
      ⟨lit "https", lit "example.com", lit "/jobs", [], [], []⟩
      (by rfl) rfl (by rfl) (by rfl)

/-! ## C8: missing resume corpus aborts the scans -/

/-- C8.  With no resume corpus (`load_resumes` of no files is the empty
string) both scan routes return the user-facing 400 error and leave the
store exactly as it was: the error is answered before any insert runs. -/
theorem C8_no_resume_abort :
    load_resumes [] = [] ∧
    (∀ jobs filt now store, api_scan jobs [] filt now store =
      (.error (lit "No resumes found. Add .txt/.md files to resumes/ folder"), store)) ∧
    (∀ jobs filt now store, api_scan_wwr jobs [] filt now store =
      (.error (lit "No resumes found"), store)) := by
  refine ⟨rfl, fun jobs filt now store => ?_, fun jobs filt now store => ?_⟩ <;>
    simp [api_scan, api_scan_wwr]

/-! ## C5: identity generation -/

theorem isHexDigit_hexDigitL : ∀ v < 16, isHexDigit (hexDigitL v) = true := by decide

theorem sha256Bytes_length (msg : List Nat) : (sha256Bytes msg).length = 32 := by
  simp [sha256Bytes]

theorem sha256Hex_length (msg : List Nat) : (sha256Hex msg).length = 64 := by
  unfold sha256Hex
  rw [List.length_flatMap]
  have h32 := sha256Bytes_length msg
  have hmap : List.map (List.length ∘ fun b =>
      [hexDigitL (b / 16 % 16), hexDigitL (b % 16)]) (sha256Bytes msg) =
      List.replicate (sha256Bytes msg).length 2 := by
    simp [Function.comp_def, List.map_const']
  rw [hmap, List.sum_replicate, h32]
  decide

theorem sha256Hex_all_hex {msg : List Nat} {ch : Char} (h : ch ∈ sha256Hex msg) :
    isHexDigit ch = true := by
  unfold sha256Hex at h
  obtain ⟨b, _, hb⟩ := List.mem_flatMap.mp h
  simp only [List.mem_cons, List.mem_singleton, List.not_mem_nil, or_false] at hb
  rcases hb with hb | hb <;> subst hb
  · exact isHexDigit_hexDigitL _ (Nat.mod_lt _ (by norm_num))
  · exact isHexDigit_hexDigitL _ (Nat.mod_lt _ (by norm_num))

/-- A sanity vector for the SHA-256 model: the digest of `"abc"` matches the
published test vector. -/
theorem sha256_abc_vector :
    sha256Hex (utf8Encode (lit "abc")) =
      lit "ba7816bf8f01cfea414140de5dae2223b00361a396177a9cb410ff61f20015ad" := by
  rfl

/-- C5.  `generate_job_id` hashes the lower-cased `cleanedUrl:title:company`
with SHA-256 and keeps the first 16 hex characters: it is a pure function
whose value is unchanged by case changes of title or company that agree
after lower-casing, and every id it produces is exactly 16 hex characters. -/
theorem C5_job_id :
    (∀ url t t' c c' : Str, pyLower t = pyLower t' → pyLower c = pyLower c' →
      generate_job_id url t c = generate_job_id url t' c') ∧
    (∀ url t c r : Str, generate_job_id url t c = .ok r →
      r.length = 16 ∧ ∀ ch ∈ r, isHexDigit ch = true) ∧
    (∀ url t c cu : Str, clean_job_url url = .ok cu →
      generate_job_id url t c =
        .ok ((sha256Hex (utf8Encode (pyLower (cu ++ ':' :: t ++ ':' :: c)))).take 16)) := by
  refine ⟨?_, ?_, ?_⟩
  · intro url t t' c c' ht hc
    unfold generate_job_id
    cases clean_job_url url with
    | error e => rfl
    | ok cu =>
      have key : pyLower (cu ++ ':' :: t ++ ':' :: c) =
          pyLower (cu ++ ':' :: t' ++ ':' :: c') := by
        simp only [pyLower, List.map_append, List.map_cons]
        simp only [pyLower] at ht hc
        rw [ht, hc]
      dsimp only
      rw [key]
  · intro url t c r h
    unfold generate_job_id at h
    cases hcl : clean_job_url url with
    | error e => rw [hcl] at h; cases h
    | ok cu =>
      rw [hcl] at h
      cases h
      constructor
      · rw [List.length_take, sha256Hex_length]
        decide
      · intro ch hch
        exact sha256Hex_all_hex ((List.take_sublist _ _).mem hch)
  · intro url t c cu h
    unfold generate_job_id
    rw [h]

/-- C5, witness: ids agree across case changes of title and company, and a
concretely computed id has length 16. -/
theorem C5_witness :
    generate_job_id (lit "https://www.linkedin.com/jobs/view/123") (lit "Engineer")
        (lit "Acme") =
      generate_job_id (lit "https://www.linkedin.com/jobs/view/123") (lit "ENGINEER")
        (lit "acme") ∧
    (lit "3c5417046d0cf53e").length = 16 ∧
    (∀ ch ∈ lit "3c5417046d0cf53e", isHexDigit ch = true) := by
  refine ⟨C5_job_id.1 _ _ _ _ _ (by decide) (by decide), ?_⟩
  exact C5_job_id.2.1 (lit "https://www.linkedin.com/jobs/view/123") (lit "Engineer")
    (lit "Acme") _ (by rfl)

/-! ## C10: identity versus pre-normalized URLs -/

/-- C10, counterexample.  The claim says `generate_job_id u t c` always
equals `generate_job_id (clean_job_url u) t c`.  That implication relies on
`clean_job_url` being idempotent, and it fails on the double-encoded Indeed
URL: normalizing once yields `jk=a%20b`, normalizing the normalized form
decodes again to `jk=a b`, so the two hashed canonical URLs — and therefore
the two ids — differ. -/
theorem C10_counterexample :
    cleanJobUrlS "https://www.indeed.com/viewjob?jk=a%2520b" =
      .ok "https://www.indeed.com/viewjob?jk=a%20b" ∧
    generateJobIdS "https://www.indeed.com/viewjob?jk=a%2520b" "t" "c" =
      .ok "7a7c9b951f32a918" ∧
    generateJobIdS "https://www.indeed.com/viewjob?jk=a%20b" "t" "c" =
      .ok "925b04b7157e5a43" ∧
    ("7a7c9b951f32a918" : String) ≠ "925b04b7157e5a43" := by
  refine ⟨by rfl, by rfl, by rfl, by decide⟩

/-- C10, amended.  `generate_job_id` normalizes its URL argument internally,
so a caller passing a raw URL and a caller passing the normalized URL obtain
the same identity exactly when normalization is idempotent at that URL
(which fails for board URLs whose id token decodes further, as the
counterexample shows). -/
theorem C10_id_of_idempotent :
    ∀ u t c v : Str, clean_job_url u = .ok v → clean_job_url v = .ok v →
      generate_job_id u t c = generate_job_id v t c := by
  intro u t c v h1 h2
  unfold generate_job_id
  rw [h1, h2]

/-- C10, witness: the amended theorem at a URL whose normalization (dropping
`utm_source`) is idempotent: the raw and the normalized URL get the same
identity. -/
theorem C10_witness :
    generate_job_id (lit "https://example.com/a?utm_source=x&b=1") (lit "t") (lit "c") =
      generate_job_id (lit "https://example.com/a?b=1") (lit "t") (lit "c") :=
  C10_id_of_idempotent _ _ _ _ (by rfl) (by rfl)

/-! ## C6: parser field bounds -/

theorem length_ite_pyTake (c : Prop) [Decidable c] (n : Nat) (s : Str) :
    (if c then pyTake n s else []).length ≤ n := by
  split
  · exact length_pyTake_le n s
  · simp

/-- C6, counterexample.  A feed item with no description and a 2001-character
title produces a record whose `raw_text` is the uncapped title: 2001
characters, above every documented cap (the stored `title` is still capped
at 200). -/
theorem C6_counterexample :
    (mkWwrRecord (List.replicate 2001 'a')
        (lit "https://weworkremotely.com/remote-jobs/x") [] (lit "d")).map
      (fun r => (r.raw_text.length, r.title.length)) = .ok (2001, 200) ∧
    ¬ (2001 : Nat) ≤ 2000 := by
  constructor
  · rfl
  · decide

/-- C6, amended.  Every record the email parsers produce satisfies the
bounds: title at most 200 characters (a 250-character title is stored at
exactly 200), company at most 100, location at most 100, `raw_text` at most
1000.  A feed record satisfies the same title/company/location bounds and
caps `raw_text` at 2000 when the item has a description, but when the
description is empty `raw_text` falls back to the raw feed title, which is
not capped. -/
theorem C6_field_bounds :
    (∀ url title ptxt d rec, mkLinkedinRecord url title ptxt d = .ok rec →
      rec.title.length ≤ 200 ∧ rec.company.length ≤ 100 ∧
      rec.location.length ≤ 100 ∧ rec.raw_text.length ≤ 1000) ∧
    (∀ url title pst plt d rec, mkIndeedRecord url title pst plt d = .ok rec →
      rec.title.length ≤ 200 ∧ rec.company.length ≤ 100 ∧
      rec.location.length ≤ 100 ∧ rec.raw_text.length ≤ 1000) ∧
    (∀ t l desc pd rec, mkWwrRecord t l desc pd = .ok rec →
      rec.title.length ≤ 200 ∧ rec.company.length ≤ 100 ∧
      rec.location.length ≤ 100 ∧ (desc ≠ [] → rec.raw_text.length ≤ 2000) ∧
      (desc = [] → rec.raw_text = t)) ∧
    (∀ url title ptxt d rec, title.length = 250 →
      mkLinkedinRecord url title ptxt d = .ok rec → rec.title.length = 200) := by
  refine ⟨?_, ?_, ?_, ?_⟩
  · intro url title ptxt d rec h
    cases ptxt with
    | none =>
      simp only [mkLinkedinRecord] at h
      obtain ⟨jid, hj, hrec⟩ := except_map_eq_ok _ _ _ h
      subst hrec
      exact ⟨length_pyTake_le _ _, by simp, by simp, length_pyTake_le _ _⟩
    | some ptxt =>
      simp only [mkLinkedinRecord] at h
      obtain ⟨jid, hj, hrec⟩ := except_map_eq_ok _ _ _ h
      subst hrec
      exact ⟨length_pyTake_le _ _, length_ite_pyTake _ _ _,
        length_ite_pyTake _ _ _, length_pyTake_le _ _⟩
  · intro url title pst plt d rec h
    cases pst with
    | none =>
      simp only [mkIndeedRecord] at h
      obtain ⟨jid, hj, hrec⟩ := except_map_eq_ok _ _ _ h
      subst hrec
      exact ⟨length_pyTake_le _ _, by simp, by simp, length_pyTake_le _ _⟩
    | some pst =>
      simp only [mkIndeedRecord] at h
      obtain ⟨jid, hj, hrec⟩ := except_map_eq_ok _ _ _ h
      subst hrec
      exact ⟨length_pyTake_le _ _, length_ite_pyTake _ _ _,
        length_ite_pyTake _ _ _, length_pyTake_le _ _⟩
  · intro t l desc pd rec h
    cases hcl : clean_job_url l with
    | error e => rw [mkWwrRecord, hcl] at h; cases h
    | ok url =>
      simp only [mkWwrRecord, hcl] at h
      obtain ⟨jid, hj, hrec⟩ := except_map_eq_ok _ _ _ h
      subst hrec
      dsimp only
      refine ⟨length_pyTake_le _ _, length_pyTake_le _ _, by decide, ?_, ?_⟩
      · intro hdesc
        simp only [if_pos hdesc]
        have hne : pyTake 2000 desc ≠ [] := by
          intro hnil
          rcases List.take_eq_nil_iff.mp hnil with h0 | h0
          · cases h0
          · exact hdesc h0
        rw [if_pos hne]
        exact length_pyTake_le _ _
      · intro hdesc
        simp [hdesc]
  · intro url title ptxt d rec h250 h
    have htitle : rec.title = pyTake 200 title := by
      cases ptxt with
      | none =>
        simp only [mkLinkedinRecord] at h
        obtain ⟨jid, hj, hrec⟩ := except_map_eq_ok _ _ _ h
        rw [hrec]
      | some ptxt =>
        simp only [mkLinkedinRecord] at h
        obtain ⟨jid, hj, hrec⟩ := except_map_eq_ok _ _ _ h
        rw [hrec]
    rw [htitle]
    exact length_pyTake_of_ge 200 title (by omega)

/-- The feed record the C6 witness inspects. -/
def c6DemoRec : JobDict :=
  match mkWwrRecord (lit "Acme: Dev") (lit "https://weworkremotely.com/x")
      (lit "desc text") (lit "d") with
  | .ok r => r
  | .error _ => { job_id := [], title := [], company := [], location := [],
                  url := [], sourceName := [], raw_text := [] }

/-- C6, witness: the amended bounds evaluated on a concrete feed record with
a description. -/
theorem C6_witness :
    c6DemoRec.title.length ≤ 200 ∧ c6DemoRec.company.length ≤ 100 ∧
    c6DemoRec.location.length ≤ 100 ∧ c6DemoRec.raw_text.length ≤ 2000 := by
  have h := C6_field_bounds.2.2.1 (lit "Acme: Dev")
    (lit "https://weworkremotely.com/x") (lit "desc text") (lit "d")
    c6DemoRec (by rfl)
  exact ⟨h.1, h.2.1, h.2.2.1, h.2.2.2.1 (by decide)⟩

/-! ## C4: dedup across repeated scans -/

/-- The ids column of the store. -/
def storeIds (s : Store) : List Str := s.map (·.job_id)

theorem storeHas_iff_mem (s : Store) (k : Str) :
    storeHas s k = true ↔ k ∈ storeIds s := by
  simp only [storeHas, List.any_eq_true, decide_eq_true_eq, storeIds,
    List.mem_map]

theorem scanStep_skip {filt now st} {j : JobDict}
    (h : storeHas st.store j.job_id = true) : scanStep filt now st j = st := by
  simp [scanStep, h]

theorem scanStep_has_mono {filt now st k} {j : JobDict}
    (h : storeHas st.store k = true) :
    storeHas (scanStep filt now st j).store k = true := by
  unfold scanStep
  dsimp only
  split
  · exact h
  · split <;>
    · simp only [storeHas, List.any_append] at h ⊢
      simp [h]

theorem scanStep_has_self (filt : JobDict → Bool × Int × Str) (now : Str)
    (st : ScanState) (j : JobDict) :
    storeHas (scanStep filt now st j).store j.job_id = true := by
  unfold scanStep
  dsimp only
  split
  · assumption
  · split <;> simp [storeHas, List.any_append, keptEmailRow, filteredEmailRow]

theorem scanFold_has_mono {filt now k} (jobs : List JobDict) (st : ScanState)
    (h : storeHas st.store k = true) :
    storeHas (jobs.foldl (scanStep filt now) st).store k = true := by
  induction jobs generalizing st with
  | nil => exact h
  | cons j rest ih => exact ih _ (scanStep_has_mono h)

theorem scanFold_has_all {filt now} (jobs : List JobDict) (st : ScanState) :
    ∀ j ∈ jobs, storeHas (jobs.foldl (scanStep filt now) st).store j.job_id = true := by
  induction jobs generalizing st with
  | nil => intro j hj; cases hj
  | cons j0 rest ih =>
    intro j hj
    rcases List.mem_cons.mp hj with rfl | hj
    · exact scanFold_has_mono rest _ (scanStep_has_self _ _ _ _)
    · exact ih _ j hj

theorem scanFold_skip_all {filt now} (jobs : List JobDict) (st : ScanState)
    (h : ∀ j ∈ jobs, storeHas st.store j.job_id = true) :
    jobs.foldl (scanStep filt now) st = st := by
  induction jobs with
  | nil => rfl
  | cons j0 rest ih =>
    have hstep : scanStep filt now st j0 = st :=
      scanStep_skip (h j0 (List.mem_cons_self j0 rest))
    simp only [List.foldl_cons, hstep]
    exact ih fun j hj => h j (List.mem_cons_of_mem j0 hj)

theorem scanStep_nodup {filt now} {st : ScanState} (j : JobDict)
    (h : (storeIds st.store).Nodup) :
    (storeIds (scanStep filt now st j).store).Nodup := by
  unfold scanStep
  dsimp only
  split
  · exact h
  · rename_i hex
    have hnotin : j.job_id ∉ storeIds st.store := by
      intro hmem
      rw [← storeHas_iff_mem] at hmem
      simp [hmem] at hex
    split <;>
    · simp only [storeIds, List.map_append, List.map_cons, List.map_nil]
      rw [List.nodup_append]
      refine ⟨h, List.nodup_singleton _, ?_⟩
      intro x hx hx1
      simp only [keptEmailRow, filteredEmailRow, List.mem_singleton] at hx1
      subst hx1
      exact hnotin hx

theorem scanFold_nodup {filt now} (jobs : List JobDict) (st : ScanState)
    (h : (storeIds st.store).Nodup) :
    (storeIds (jobs.foldl (scanStep filt now) st).store).Nodup := by
  induction jobs generalizing st with
  | nil => exact h
  | cons j rest ih => exact ih _ (scanStep_nodup j h)

theorem filter_id_length_one {s : Store} {k : Str}
    (hnd : (storeIds s).Nodup) (hmem : k ∈ storeIds s) :
    (s.filter fun r => r.job_id = k).length = 1 := by
  induction s with
  | nil => cases hmem
  | cons r rest ih =>
    simp only [storeIds, List.map_cons, List.nodup_cons] at hnd hmem
    rw [List.mem_cons] at hmem
    by_cases hk : r.job_id = k
    · have hrestnil : rest.filter (fun r => decide (r.job_id = k)) = [] := by
        rw [List.filter_eq_nil_iff]
        intro x hx
        simp only [decide_eq_true_eq]
        intro hxk
        exact hnd.1 (by rw [← hk] at hxk; exact (List.mem_map.mpr ⟨x, hx, hxk⟩))
      simp [List.filter_cons, hk, hrestnil]
    · have hmem2 : k ∈ storeIds rest := by
        rcases hmem with h0 | h0
        · exact absurd h0.symm hk
        · exact h0
      have := ih hnd.2 hmem2
      simp [List.filter_cons, hk, this]

/-- C4.  Scanning the same parsed candidates twice (with arbitrary filter
outcomes and timestamps on each run) dedups on `job_id`: the second run
reports `newCount = 0` (and no filtered inserts) and leaves the store
identical; a store with unique ids stays unique, every scanned candidate
ends up with exactly one row, and a candidate whose `job_id` already exists
is skipped without inserting or updating anything. -/
theorem C4_scan_dedup (filt filt2 : JobDict → Bool × Int × Str)
    (now now2 : Str) (store : Store) (jobs : List JobDict) (resume : Str)
    (hres : resume ≠ []) (hnd : (storeIds store).Nodup) :
    (api_scan jobs resume filt2 now2 (api_scan jobs resume filt now store).2).1 =
      .ok ⟨jobs.length, 0, 0⟩ ∧
    (api_scan jobs resume filt2 now2 (api_scan jobs resume filt now store).2).2 =
      (api_scan jobs resume filt now store).2 ∧
    (storeIds (api_scan jobs resume filt now store).2).Nodup ∧
    (∀ j ∈ jobs,
      (((api_scan jobs resume filt now store).2).filter
        (fun r => r.job_id = j.job_id)).length = 1) ∧
    (∀ st : ScanState, ∀ j : JobDict, storeHas st.store j.job_id = true →
      scanStep filt now st j = st) := by
  simp only [api_scan, if_neg hres, api_scan_loop]
  have hall : ∀ j ∈ jobs,
      storeHas (jobs.foldl (scanStep filt now) ⟨store, 0, 0⟩).store j.job_id = true :=
    scanFold_has_all jobs _
  have hskip := @scanFold_skip_all filt2 now2 jobs
    ⟨(jobs.foldl (scanStep filt now) ⟨store, 0, 0⟩).store, 0, 0⟩ hall
  have hnd1 : (storeIds (jobs.foldl (scanStep filt now) ⟨store, 0, 0⟩).store).Nodup :=
    scanFold_nodup jobs _ hnd
  refine ⟨?_, ?_, hnd1, ?_, ?_⟩
  · rw [hskip]
  · rw [hskip]
  · intro j hj
    have hmem : j.job_id ∈ storeIds (jobs.foldl (scanStep filt now) ⟨store, 0, 0⟩).store :=
      (storeHas_iff_mem _ _).mp (hall j hj)
    exact filter_id_length_one hnd1 hmem
  · intro st j h
    exact scanStep_skip h

/-- A parsed candidate used by the C4 and C9 witnesses. -/
def demoJob : JobDict :=
  { job_id := lit "j1", title := lit "Dev", company := lit "Acme",
    location := lit "Remote", url := lit "https://example.com/a",
    sourceName := lit "linkedin", raw_text := lit "Dev at Acme",
    created_at := lit "d", email_date := lit "d" }

/-- C4, witness: one candidate scanned twice from an empty store: the second
run reports zero new rows and an unchanged store, and the candidate has
exactly one row. -/
theorem C4_witness :
    (api_scan [demoJob] (lit "r") (fun _ => (true, 50, lit "ok")) (lit "t2")
        (api_scan [demoJob] (lit "r") (fun _ => (true, 50, lit "ok")) (lit "t") []).2).1 =
      .ok ⟨1, 0, 0⟩ ∧
    (api_scan [demoJob] (lit "r") (fun _ => (true, 50, lit "ok")) (lit "t2")
        (api_scan [demoJob] (lit "r") (fun _ => (true, 50, lit "ok")) (lit "t") []).2).2 =
      (api_scan [demoJob] (lit "r") (fun _ => (true, 50, lit "ok")) (lit "t") []).2 := by
  have h := C4_scan_dedup (fun _ => (true, 50, lit "ok")) (fun _ => (true, 50, lit "ok"))
    (lit "t") (lit "t2") [] [demoJob] (lit "r") (by decide) (by simp [storeIds])
  exact ⟨h.1, h.2.1⟩

/-! ## C9: filtered records never receive a qualification score -/

/-- The invariant: every `isFiltered` row still has the default score 0 and
a never-written `analysis` column. -/
def filteredUnscored (s : Store) : Prop :=
  ∀ r ∈ s, r.is_filtered = true → r.score = 0 ∧ r.analysis = none

theorem scanStep_unscored {filt now} {st : ScanState} {j : JobDict}
    (h : filteredUnscored st.store) :
    filteredUnscored (scanStep filt now st j).store := by
  unfold scanStep
  dsimp only
  split
  · exact h
  · split <;>
    · intro r hr hfil
      rcases List.mem_append.mp hr with hr | hr
      · exact h r hr hfil
      · rw [List.mem_singleton] at hr
        subst hr
        simp_all [keptEmailRow, filteredEmailRow]

theorem scanFold_unscored {filt now} (jobs : List JobDict) (st : ScanState)
    (h : filteredUnscored st.store) :
    filteredUnscored (jobs.foldl (scanStep filt now) st).store := by
  induction jobs generalizing st with
  | nil => exact h
  | cons j rest ih => exact ih _ (scanStep_unscored h)

theorem wwrStep_unscored {filt now} {st : ScanState} {j : JobDict}
    (h : filteredUnscored st.store) :
    filteredUnscored (wwrStep filt now st j).store := by
  unfold wwrStep
  dsimp only
  split
  · exact h
  · split <;>
    · intro r hr hfil
      rcases List.mem_append.mp hr with hr | hr
      · exact h r hr hfil
      · rw [List.mem_singleton] at hr
        subst hr
        simp_all [keptWwrRow, keptEmailRow, filteredWwrRow]

theorem wwrFold_unscored {filt now} (jobs : List JobDict) (st : ScanState)
    (h : filteredUnscored st.store) :
    filteredUnscored (jobs.foldl (wwrStep filt now) st).store := by
  induction jobs generalizing st with
  | nil => exact h
  | cons j rest ih => exact ih _ (wwrStep_unscored h)

theorem api_scan_unscored {jobs resume filt now} {s : Store}
    (h : filteredUnscored s) :
    filteredUnscored (api_scan jobs resume filt now s).2 := by
  unfold api_scan
  split
  · exact h
  · exact scanFold_unscored jobs _ h

theorem api_scan_wwr_unscored {jobs resume filt now} {s : Store}
    (h : filteredUnscored s) :
    filteredUnscored (api_scan_wwr jobs resume filt now s).2 := by
  unfold api_scan_wwr
  split
  · exact h
  · exact wwrFold_unscored jobs _ h

theorem api_analyze_unscored {resume outcome now} {s : Store}
    (h : filteredUnscored s) :
    filteredUnscored (api_analyze resume outcome now s).2 := by
  unfold api_analyze
  split
  · exact h
  · intro r hr hfil
    obtain ⟨r0, hr0, hreq⟩ := List.mem_map.mp hr
    by_cases hsel : analyzeSelected r0 = true
    · rw [if_pos hsel] at hreq
      exfalso
      simp only [analyzeSelected, Bool.and_eq_true, decide_eq_true_eq] at hsel
      subst hreq
      simp only [analyzeUpdate] at hfil
      rw [hfil] at hsel
      simp at hsel
    · rw [if_neg hsel] at hreq
      subst hreq
      exact h r0 hr0 hfil

theorem update_job_unscored {job_id status now} {s : Store}
    (h : filteredUnscored s) :
    filteredUnscored (update_job job_id status now s) := by
  intro r hr hfil
  obtain ⟨r0, hr0, hreq⟩ := List.mem_map.mp hr
  by_cases hid : r0.job_id = job_id
  · rw [if_pos hid] at hreq
    subst hreq
    exact h r0 hr0 hfil
  · rw [if_neg hid] at hreq
    subst hreq
    exact h r0 hr0 hfil

theorem api_cover_letter_unscored {job_id letter now} {s : Store}
    (h : filteredUnscored s) :
    filteredUnscored (api_cover_letter job_id letter now s) := by
  intro r hr hfil
  obtain ⟨r0, hr0, hreq⟩ := List.mem_map.mp hr
  by_cases hid : r0.job_id = job_id
  · rw [if_pos hid] at hreq
    subst hreq
    exact h r0 hr0 hfil
  · rw [if_neg hid] at hreq
    subst hreq
    exact h r0 hr0 hfil

theorem api_capture_unscored {data resume filt now} {s : Store}
    (h : filteredUnscored s) :
    filteredUnscored (api_capture data resume filt now s).2 := by
  unfold api_capture
  cases clean_job_url data.url with
  | error e => exact h
  | ok url =>
    dsimp only
    split
    · exact h
    · cases generate_job_id url data.title data.company with
      | error e => exact h
      | ok jid =>
        dsimp only
        split
        · intro r hr hfil
          obtain ⟨r0, hr0, hreq⟩ := List.mem_map.mp hr
          split at hreq <;>
          · subst hreq
            exact h r0 hr0 hfil
        · intro r hr hfil
          rcases List.mem_append.mp hr with hr | hr
          · exact h r hr hfil
          · rw [List.mem_singleton] at hr
            subst hr
            simp at hfil

/-- C9.  In every store reachable by the pipeline's operations from an empty
database, every row with `isFiltered = true` still carries the default
qualification score 0 and a never-written `analysis` column: the
full-analysis pass selects and updates only `is_filtered = 0` rows, and no
inserting route scores a filtered row. -/
theorem C9_filtered_never_scored :
    ∀ s : Store, Reachable s →
      ∀ r ∈ s, r.is_filtered = true → r.score = 0 ∧ r.analysis = none := by
  intro s h
  induction h with
  | init => intro r hr; cases hr
  | scan jobs resume filt now _ ih => exact api_scan_unscored ih
  | wwr jobs resume filt now _ ih => exact api_scan_wwr_unscored ih
  | analyze resume outcome now _ ih => exact api_analyze_unscored ih
  | patch job_id status now _ ih => exact update_job_unscored ih
  | cover job_id letter now _ ih => exact api_cover_letter_unscored ih
  | capture data resume filt now _ ih => exact api_capture_unscored ih

/-- C9, witness: a store reached by a scan that filtered out its one
candidate; the filtered row is unscored and unanalyzed. -/
theorem C9_witness :
    (filteredEmailRow demoJob 20 (lit "bad") (lit "t")).score = 0 ∧
    (filteredEmailRow demoJob 20 (lit "bad") (lit "t")).analysis = none :=
  C9_filtered_never_scored
    (api_scan [demoJob] (lit "r") (fun _ => (false, 20, lit "bad")) (lit "t") []).2
    (Reachable.scan [demoJob] (lit "r") (fun _ => (false, 20, lit "bad")) (lit "t")
      Reachable.init)
    (filteredEmailRow demoJob 20 (lit "bad") (lit "t")) (by decide) (by decide)

/-! ## C1: idempotence of URL normalization

The counterexample is the double-encoded Indeed URL; the amended theorem
needs the full machinery below: percent-coding round trips, `parse_qs` /
`urlencode` round trips, the invariants `urlparse` guarantees for its
components, and a reparse lemma for `urlunparse` output. -/

/-- C1, counterexample.  `clean_job_url` is not idempotent: the Indeed
branch embeds the percent-decoded `jk` value without re-encoding it, so a
double-encoded value decodes once per application. -/
theorem C1_counterexample :
    cleanJobUrlS "https://www.indeed.com/viewjob?jk=a%2520b" =
      .ok "https://www.indeed.com/viewjob?jk=a%20b" ∧
    cleanJobUrlS "https://www.indeed.com/viewjob?jk=a%20b" =
      .ok "https://www.indeed.com/viewjob?jk=a b" ∧
    ("https://www.indeed.com/viewjob?jk=a%20b" : String) ≠
      "https://www.indeed.com/viewjob?jk=a b" := by
  refine ⟨by rfl, by rfl, by decide⟩

/-- A parsed URL on which `clean_job_url` rewrites nothing is returned
unchanged. -/
theorem clean_job_url_inert {u : Str} {p : UrlParts} (hp : pyUrlparse u = .ok p)
    (hq : p.query = []) (hlk : containsSub (lit "linkedin.com") p.netloc = false)
    (hin : containsSub (lit "indeed.com") p.netloc = false) :
    clean_job_url u = .ok u := by
  by_cases hne : u = []
  · simp [clean_job_url, hne]
  · simp [clean_job_url, if_neg hne, hp, hlk, hin, genericClean, hq]

/-! ### Percent-coding round trips -/

theorem hexVal_hexDigitU : ∀ v < 16, hexVal (hexDigitU v) = v := by decide

theorem isHexDigit_hexDigitU : ∀ v < 16, isHexDigit (hexDigitU v) = true := by decide

theorem percentDecode_cons {c : Char} {rest : Str} (h : c ≠ '%') :
    percentDecode (c :: rest) = c :: percentDecode rest := by
  match rest with
  | [] => simp [percentDecode, h]
  | [a] => simp [percentDecode, h]
  | a :: b :: t => simp [percentDecode, h]

theorem percentDecode_escape {a b : Char} {rest : Str}
    (ha : isHexDigit a = true) (hb : isHexDigit b = true) :
    percentDecode ('%' :: a :: b :: rest) =
      Char.ofNat (16 * hexVal a + hexVal b) :: percentDecode rest := by
  simp [percentDecode, ha, hb]

theorem percentDecode_encByte {v : Nat} (hv : v < 256) (rest : Str) :
    percentDecode (encByte v ++ rest) = Char.ofNat v :: percentDecode rest := by
  have h1 : v / 16 % 16 < 16 := Nat.mod_lt _ (by norm_num)
  have h2 : v % 16 < 16 := Nat.mod_lt _ (by norm_num)
  rw [encByte, List.cons_append, List.cons_append, List.cons_append,
    List.nil_append,
    percentDecode_escape (isHexDigit_hexDigitU _ h1) (isHexDigit_hexDigitU _ h2),
    hexVal_hexDigitU _ h1, hexVal_hexDigitU _ h2]
  congr 2
  omega

theorem charOfNat_toNat {c : Char} : Char.ofNat c.toNat = c :=
  Char.ofNat_toNat c

theorem quotePlus_nil : quotePlus [] = [] := rfl

theorem quotePlus_cons (c : Char) (s : Str) :
    quotePlus (c :: s) =
      (if alwaysSafe c then [c]
       else if c = ' ' then ['+']
       else (charBytes c).flatMap encByte) ++ quotePlus s := by
  simp [quotePlus]

theorem alwaysSafe_ne_plus {c : Char} (h : alwaysSafe c = true) : c ≠ '+' := by
  intro he
  subst he
  exact absurd h (by decide)

theorem alwaysSafe_ne_percent {c : Char} (h : alwaysSafe c = true) : c ≠ '%' := by
  intro he
  subst he
  exact absurd h (by decide)

theorem hexDigitU_ne_plus : ∀ v < 16, hexDigitU v ≠ '+' := by decide

theorem plusSub_encByte (v : Nat) :
    (encByte v).map (fun c => if c = '+' then ' ' else c) = encByte v := by
  have h1 : v / 16 % 16 < 16 := Nat.mod_lt _ (by norm_num)
  have h2 : v % 16 < 16 := Nat.mod_lt _ (by norm_num)
  simp [encByte, hexDigitU_ne_plus _ h1, hexDigitU_ne_plus _ h2]

/-- Decoding inverts encoding char by char: `unquote_plus` of a
`quote_plus`-encoded string recovers it, for chars below 256 (every char a
decoded ASCII query can contain). -/
theorem unquotePlus_quotePlus {v : Str} (hv : ∀ c ∈ v, c.toNat < 256) :
    unquotePlus (quotePlus v) = v := by
  induction v with
  | nil => rfl
  | cons c cs ih =>
    have hc : c.toNat < 256 := hv c (List.mem_cons_self c cs)
    have ihh : unquotePlus (quotePlus cs) = cs :=
      ih fun x hx => hv x (List.mem_cons_of_mem c hx)
    rw [quotePlus_cons]
    unfold unquotePlus at ihh ⊢
    rw [List.map_append]
    by_cases hsafe : alwaysSafe c = true
    · rw [if_pos hsafe]
      have hplus := alwaysSafe_ne_plus hsafe
      have hperc := alwaysSafe_ne_percent hsafe
      simp only [List.map_cons, List.map_nil, if_neg hplus, List.cons_append,
        List.nil_append]
      rw [percentDecode_cons hperc, ihh]
    · rw [if_neg hsafe]
      by_cases hsp : c = ' '
      · rw [if_pos hsp]
        simp only [List.map_cons, List.map_nil, if_pos rfl, List.cons_append,
          List.nil_append]
        rw [percentDecode_cons (by decide), ihh, hsp]
        simp
      · rw [if_neg hsp]
        have hbytes : charBytes c = [c.toNat] := by
          simp [charBytes, hc]
        rw [hbytes]
        simp only [List.flatMap_cons, List.flatMap_nil, List.append_nil]
        rw [plusSub_encByte, percentDecode_encByte hc, ihh, charOfNat_toNat]

/-! ### `findSub` / `splitOnSub` lemmas -/

theorem findSub_some_contains {sep s : Str} {i : Nat} (h : findSub sep s = some i) :
    sep <:+: s := by
  induction s generalizing i with
  | nil =>
    unfold findSub at h
    split at h
    · rename_i hp
      exact (List.isPrefixOf_iff_prefix.mp hp).isInfix
    · cases h
  | cons x xs ih =>
    unfold findSub at h
    split at h
    · rename_i hp
      exact (List.isPrefixOf_iff_prefix.mp hp).isInfix
    · rcases Option.map_eq_some'.mp h with ⟨j, hj, rfl⟩
      exact List.infix_cons (ih hj)

theorem findSub_eq_none_of_not_mem {sep s : Str} {c : Char} (hc : c ∈ sep)
    (hs : c ∉ s) : findSub sep s = none := by
  cases h : findSub sep s with
  | none => rfl
  | some i => exact absurd ((findSub_some_contains h).subset hc) hs

theorem findSub_of_isPrefixOf {sep s : Str} (h : sep.isPrefixOf s = true) :
    findSub sep s = some 0 := by
  cases s <;> simp [findSub, h]

theorem findSub_singleton_none {c : Char} {s : Str} (h : c ∉ s) :
    findSub [c] s = none :=
  findSub_eq_none_of_not_mem (List.mem_singleton_self c) h

theorem findSub_singleton_append {c : Char} {a t : Str} (h : c ∉ a) :
    findSub [c] (a ++ c :: t) = some a.length := by
  induction a with
  | nil =>
    apply findSub_of_isPrefixOf
    simp [List.isPrefixOf]
  | cons x xs ih =>
    simp only [List.mem_cons, not_or] at h
    have hne : ¬ [c].isPrefixOf (x :: (xs ++ c :: t)) = true := by
      simp [List.isPrefixOf]
      exact fun hc => h.1 hc
    unfold findSub
    simp only [List.cons_append]
    rw [if_neg hne, ih h.2]
    rfl

theorem splitOnSubF_stable {sep : Str} (hsep : sep ≠ []) :
    ∀ f1 f2 s, s.length < f1 → s.length < f2 →
      splitOnSubF sep f1 s = splitOnSubF sep f2 s := by
  intro f1
  induction f1 with
  | zero => intro f2 s h1; omega
  | succ n ih =>
    intro f2 s h1 h2
    cases f2 with
    | zero => omega
    | succ m =>
      cases hf : findSub sep s with
      | none => simp only [splitOnSubF, hf]
      | some i =>
        have hinf := findSub_some_contains hf
        have hslen : sep.length ≤ s.length := hinf.sublist.length_le
        have hsep1 : 1 ≤ sep.length := by
          cases sep
          · exact absurd rfl hsep
          · simp
        have hdrop : (s.drop (i + sep.length)).length < n := by
          rw [List.length_drop]
          omega
        have hdrop2 : (s.drop (i + sep.length)).length < m := by
          rw [List.length_drop]
          omega
        simp only [splitOnSubF, hf]
        rw [ih _ _ hdrop hdrop2]

theorem splitOnSubF_step {sep s : Str} {i n : Nat} (hfind : findSub sep s = some i) :
    splitOnSubF sep (n + 1) s = s.take i :: splitOnSubF sep n (s.drop (i + sep.length)) := by
  simp only [splitOnSubF, hfind]

theorem splitOnSub_cons_of_found {sep a t : Str} (hsep : sep ≠ [])
    (hfind : findSub sep (a ++ sep ++ t) = some a.length) :
    splitOnSub sep (a ++ sep ++ t) = a :: splitOnSub sep t := by
  unfold splitOnSub
  rw [splitOnSubF_step hfind]
  have htake : (a ++ sep ++ t).take a.length = a := by
    rw [List.append_assoc, List.take_left]
  have hdrop : (a ++ sep ++ t).drop (a.length + sep.length) = t := by
    rw [← List.length_append a sep]
    exact List.drop_left (a ++ sep) t
  rw [htake, hdrop]
  congr 1
  have h1 : sep.length ≥ 1 := by
    cases sep
    · exact absurd rfl hsep
    · simp
  apply splitOnSubF_stable hsep
  · simp only [List.length_append]
    omega
  · omega

theorem splitOnSub_of_none {sep s : Str} (hfind : findSub sep s = none) :
    splitOnSub sep s = [s] := by
  unfold splitOnSub splitOnSubF
  rw [hfind]

theorem splitOnSub_intercalate {c : Char} {parts : List Str}
    (hne : parts ≠ []) (hall : ∀ p ∈ parts, c ∉ p) :
    splitOnSub [c] (List.intercalate [c] parts) = parts := by
  induction parts with
  | nil => exact absurd rfl hne
  | cons p rest ih =>
    cases rest with
    | nil =>
      have hp : c ∉ p := hall p (List.mem_singleton_self p)
      simp only [List.intercalate, List.intersperse_singleton, List.flatten,
        List.append_nil]
      exact splitOnSub_of_none (findSub_singleton_none hp)
    | cons q rest2 =>
      have hp : c ∉ p := hall p (List.mem_cons_self p _)
      have hstep : List.intercalate [c] (p :: q :: rest2) =
          p ++ [c] ++ List.intercalate [c] (q :: rest2) := by
        simp [List.intercalate, List.intersperse]
      rw [hstep]
      have hfind : findSub [c] (p ++ [c] ++ List.intercalate [c] (q :: rest2)) =
          some p.length := by
        rw [List.append_assoc, List.singleton_append]
        exact findSub_singleton_append hp
      rw [splitOnSub_cons_of_found (by simp) hfind]
      rw [ih (by simp) fun x hx => hall x (List.mem_cons_of_mem p hx)]

/-! ### The character classes an encoded query can contain -/

theorem quotePlus_mem {s : Str} {ch : Char} (h : ch ∈ quotePlus s) :
    alwaysSafe ch = true ∨ ch = '+' ∨ ch = '%' ∨ ∃ v, v < 16 ∧ ch = hexDigitU v := by
  unfold quotePlus at h
  obtain ⟨c, hc, hch⟩ := List.mem_flatMap.mp h
  split at hch
  · rw [List.mem_singleton] at hch
    subst hch
    left
    assumption
  · split at hch
    · rw [List.mem_singleton] at hch
      subst hch
      right
      left
      rfl
    · obtain ⟨b, _, hch2⟩ := List.mem_flatMap.mp hch
      unfold encByte at hch2
      simp only [List.mem_cons, List.not_mem_nil, or_false] at hch2
      rcases hch2 with h0 | h0 | h0
      · right; right; left; exact h0
      · right; right; right
        exact ⟨b / 16 % 16, Nat.mod_lt _ (by norm_num), h0⟩
      · right; right; right
        exact ⟨b % 16, Nat.mod_lt _ (by norm_num), h0⟩

theorem not_mem_quotePlus (s : Str) (c : Char)
    (h1 : alwaysSafe c = false) (h2 : c ≠ '+') (h3 : c ≠ '%')
    (h4 : ∀ v < 16, hexDigitU v ≠ c) : c ∉ quotePlus s := by
  intro hm
  rcases quotePlus_mem hm with h0 | h0 | h0 | ⟨v, hv, h0⟩
  · rw [h1] at h0; cases h0
  · exact h2 h0
  · exact h3 h0
  · exact h4 v hv h0.symm

theorem amp_not_mem_quotePlus (s : Str) : '&' ∉ quotePlus s :=
  not_mem_quotePlus s '&' (by decide) (by decide) (by decide) (by decide)

theorem eqsign_not_mem_quotePlus (s : Str) : '=' ∉ quotePlus s :=
  not_mem_quotePlus s '=' (by decide) (by decide) (by decide) (by decide)

theorem hash_not_mem_quotePlus (s : Str) : '#' ∉ quotePlus s :=
  not_mem_quotePlus s '#' (by decide) (by decide) (by decide) (by decide)

theorem tab_not_mem_quotePlus (s : Str) : '\t' ∉ quotePlus s :=
  not_mem_quotePlus s '\t' (by decide) (by decide) (by decide) (by decide)

theorem cr_not_mem_quotePlus (s : Str) : '\r' ∉ quotePlus s :=
  not_mem_quotePlus s '\r' (by decide) (by decide) (by decide) (by decide)

theorem lf_not_mem_quotePlus (s : Str) : '\n' ∉ quotePlus s :=
  not_mem_quotePlus s '\n' (by decide) (by decide) (by decide) (by decide)

theorem quotePlus_ne_nil {c : Char} (s : Str) : quotePlus (c :: s) ≠ [] := by
  rw [quotePlus_cons]
  intro hnil
  rcases List.append_eq_nil.mp hnil with ⟨h1, _⟩
  split at h1
  · cases h1
  · split at h1
    · cases h1
    · have hcb : charBytes c ≠ [] := by
        unfold charBytes
        split
        · simp
        · unfold utf8Bytes
          repeat' split
          all_goals simp
      cases hb : charBytes c with
      | nil => exact hcb hb
      | cons b bs =>
        rw [hb] at h1
        simp only [List.flatMap_cons, encByte] at h1
        cases h1

/-! ### `parse_qsl` on an encoded dict -/

/-- The flattened key-value pairs a `parse_qs` dict represents. -/
def dictPairs (d : List (Str × List Str)) : List (Str × Str) :=
  d.flatMap fun e => e.2.map fun v => (e.1, v)

theorem parseQsl_urlencodeSeq (d : List (Str × List Str))
    (hk : ∀ e ∈ d, ∀ ch ∈ e.1, ch.toNat < 256)
    (hv : ∀ e ∈ d, ∀ v ∈ e.2, v ≠ [] ∧ ∀ ch ∈ v, ch.toNat < 256) :
    parseQsl (urlencodeSeq d) = dictPairs d := by
  by_cases hnil : dictPairs d = []
  · have henc : d.flatMap (fun kv => kv.2.map fun v =>
        quotePlus kv.1 ++ '=' :: quotePlus v) = [] := by
      unfold dictPairs at hnil
      rw [List.flatMap_eq_nil_iff] at hnil ⊢
      intro e he
      have := hnil e he
      rw [List.map_eq_nil_iff] at this ⊢
      exact this
    rw [hnil, urlencodeSeq, henc]
    rfl
  · set parts := d.flatMap (fun kv => kv.2.map fun v =>
      quotePlus kv.1 ++ '=' :: quotePlus v) with hparts
    have hpne : parts ≠ [] := by
      intro h0
      apply hnil
      unfold dictPairs
      rw [hparts, List.flatMap_eq_nil_iff] at h0
      rw [List.flatMap_eq_nil_iff]
      intro e he
      have := h0 e he
      rw [List.map_eq_nil_iff] at this ⊢
      exact this
    have hamp : ∀ p ∈ parts, '&' ∉ p := by
      intro p hp
      obtain ⟨e, he, hp2⟩ := List.mem_flatMap.mp hp
      obtain ⟨v, hv2, hp3⟩ := List.mem_map.mp hp2
      subst hp3
      intro hmem
      rcases List.mem_append.mp hmem with h0 | h0
      · exact amp_not_mem_quotePlus _ h0
      · rcases List.mem_cons.mp h0 with h0 | h0
        · cases h0
        · exact amp_not_mem_quotePlus _ h0
    have hsplit : splitOnSub (lit "&") (urlencodeSeq d) = parts := by
      rw [urlencodeSeq, ← hparts]
      exact splitOnSub_intercalate hpne hamp
    unfold parseQsl
    rw [hsplit, hparts, dictPairs]
    rw [List.filterMap_flatMap]
    apply List.flatMap_congr
    intro e he
    rw [List.filterMap_map]
    have : ∀ v ∈ e.2, (fun nv =>
        if nv = ([] : Str) then none
        else match splitAtFirst '=' nv with
          | (_, none) => none
          | (n, some w) =>
            if w = [] then none else some (unquotePlus n, unquotePlus w))
        ((fun v => quotePlus e.1 ++ '=' :: quotePlus v) v) = some (e.1, v) := by
      intro v hv2
      obtain ⟨hvne, hvchars⟩ := hv e he v hv2
      have hqne : quotePlus v ≠ [] := by
        cases v with
        | nil => exact absurd rfl hvne
        | cons c cs => exact quotePlus_ne_nil cs
      have hne : quotePlus e.1 ++ '=' :: quotePlus v ≠ ([] : Str) := by
        simp
      have hsp : splitAtFirst '=' (quotePlus e.1 ++ '=' :: quotePlus v) =
          (quotePlus e.1, some (quotePlus v)) :=
        splitAtFirst_append_of_not_mem (eqsign_not_mem_quotePlus _)
      have hkch : ∀ ch ∈ e.1, ch.toNat < 256 := hk e he
      dsimp only
      rw [if_neg hne, hsp]
      dsimp only
      rw [if_neg hqne, unquotePlus_quotePlus hkch, unquotePlus_quotePlus hvchars]
    exact List.filterMap_eq_map_iff_forall_eq_some.mpr this

/-! ### Grouping (`parse_qs` dict construction) -/

theorem groupPairsF_stable : ∀ f1 f2 (l : List (Str × Str)), l.length ≤ f1 →
    l.length ≤ f2 → groupPairsF f1 l = groupPairsF f2 l := by
  intro f1
  induction f1 with
  | zero =>
    intro f2 l h1 h2
    have : l = [] := List.eq_nil_of_length_eq_zero (Nat.le_zero.mp h1)
    subst this
    cases f2 <;> rfl
  | succ n ih =>
    intro f2 l h1 h2
    cases l with
    | nil => cases f2 <;> rfl
    | cons kv rest =>
      cases f2 with
      | zero => simp at h2
      | succ m =>
        rcases kv with ⟨k, v⟩
        simp only [groupPairsF]
        congr 1
        have hle : (rest.filter fun kv => ¬ kv.1 = k).length ≤ rest.length :=
          List.length_filter_le _ _
        simp only [List.length_cons] at h1 h2
        exact ih _ _ (by omega) (by omega)

theorem groupPairsF_mem : ∀ (fuel : Nat) (l : List (Str × Str)) e,
    e ∈ groupPairsF fuel l → ∀ v ∈ e.2, (e.1, v) ∈ l := by
  intro fuel
  induction fuel with
  | zero =>
    intro l e he v hv
    cases l with
    | nil => cases he
    | cons kv rest =>
      simp only [groupPairsF] at he
      obtain ⟨kv2, hkv2, heq⟩ := List.mem_map.mp he
      subst heq
      simp only [List.mem_singleton] at hv
      subst hv
      exact hkv2
  | succ n ih =>
    intro l e he v hv
    cases l with
    | nil => cases he
    | cons kv rest =>
      rcases kv with ⟨k, w⟩
      simp only [groupPairsF, List.mem_cons] at he
      rcases he with he | he
      · subst he
        simp only [List.mem_cons] at hv
        rcases hv with hv | hv
        · subst hv
          exact List.mem_cons_self _ _
        · obtain ⟨kv2, hkv2, heq⟩ := List.mem_map.mp hv
          have hk := List.of_mem_filter hkv2
          simp only [decide_eq_true_eq] at hk
          have : (k, v) = kv2 := by
            rcases kv2 with ⟨k2, v2⟩
            simp only at heq hk
            simp [hk, heq]
          rw [this]
          exact List.mem_cons_of_mem _ (List.mem_of_mem_filter hkv2)
      · have := ih _ e he v hv
        exact List.mem_cons_of_mem _ (List.mem_of_mem_filter this)

theorem groupPairsF_key_mem : ∀ (fuel : Nat) (l : List (Str × Str)) e,
    e ∈ groupPairsF fuel l → e.1 ∈ l.map (·.1) := by
  intro fuel
  induction fuel with
  | zero =>
    intro l e he
    cases l with
    | nil => cases he
    | cons kv rest =>
      simp only [groupPairsF] at he
      obtain ⟨kv2, hkv2, heq⟩ := List.mem_map.mp he
      subst heq
      exact List.mem_map.mpr ⟨kv2, hkv2, rfl⟩
  | succ n ih =>
    intro l e he
    cases l with
    | nil => cases he
    | cons kv rest =>
      rcases kv with ⟨k, w⟩
      simp only [groupPairsF, List.mem_cons] at he
      rcases he with he | he
      · subst he
        simp
      · have := ih _ e he
        obtain ⟨kv2, hkv2, heq⟩ := List.mem_map.mp this
        exact List.mem_map.mpr
          ⟨kv2, List.mem_cons_of_mem _ (List.mem_of_mem_filter hkv2), heq⟩

theorem groupPairsF_keys_nodup : ∀ (fuel : Nat) (l : List (Str × Str)),
    l.length ≤ fuel → ((groupPairsF fuel l).map (·.1)).Nodup := by
  intro fuel
  induction fuel with
  | zero =>
    intro l h
    have : l = [] := List.eq_nil_of_length_eq_zero (Nat.le_zero.mp h)
    subst this
    simp [groupPairsF]
  | succ n ih =>
    intro l h
    cases l with
    | nil => simp [groupPairsF]
    | cons kv rest =>
      rcases kv with ⟨k, w⟩
      simp only [groupPairsF, List.map_cons, List.nodup_cons]
      constructor
      · intro hmem
        obtain ⟨e, he, heq⟩ := List.mem_map.mp hmem
        have := groupPairsF_key_mem _ _ e he
        rw [heq] at this
        obtain ⟨kv2, hkv2, heq2⟩ := List.mem_map.mp this
        have := List.of_mem_filter hkv2
        simp only [decide_eq_true_eq] at this
        exact this heq2
      · apply ih
        have := List.length_filter_le (fun kv => ¬ kv.1 = k) rest
        simp only [List.length_cons] at h
        omega

theorem groupPairsF_vals_ne : ∀ (fuel : Nat) (l : List (Str × Str)),
    l.length ≤ fuel → ∀ e ∈ groupPairsF fuel l, e.2 ≠ [] := by
  intro fuel
  induction fuel with
  | zero =>
    intro l h
    have : l = [] := List.eq_nil_of_length_eq_zero (Nat.le_zero.mp h)
    subst this
    intro e he
    cases he
  | succ n ih =>
    intro l h e he
    cases l with
    | nil => cases he
    | cons kv rest =>
      rcases kv with ⟨k, w⟩
      simp only [groupPairsF, List.mem_cons] at he
      rcases he with he | he
      · subst he
        simp
      · refine ih _ ?_ e he
        have := List.length_filter_le (fun kv => ¬ kv.1 = k) rest
        simp only [List.length_cons] at h
        omega

theorem dictPairs_fst_mem {d : List (Str × List Str)} {p : Str × Str}
    (hp : p ∈ dictPairs d) : p.1 ∈ d.map (·.1) := by
  obtain ⟨e, he, hp2⟩ := List.mem_flatMap.mp hp
  obtain ⟨v, _, hp3⟩ := List.mem_map.mp hp2
  subst hp3
  exact List.mem_map.mpr ⟨e, he, rfl⟩

theorem groupPairs_dictPairs (d : List (Str × List Str))
    (hnd : (d.map (·.1)).Nodup) (hvne : ∀ e ∈ d, e.2 ≠ []) :
    groupPairsF (dictPairs d).length (dictPairs d) = d := by
  induction d with
  | nil => rfl
  | cons e d' ih =>
    rcases e with ⟨k, vs⟩
    cases vs with
    | nil => exact absurd rfl (hvne (k, []) (List.mem_cons_self _ _))
    | cons v vs' =>
      have hd : dictPairs ((k, v :: vs') :: d') =
          (k, v) :: (vs'.map fun w => (k, w)) ++ dictPairs d' := by
        simp [dictPairs]
      rw [hd]
      have hklen : ((k, v) :: (vs'.map fun w => (k, w)) ++ dictPairs d').length =
          ((vs'.map fun w => (k, w)) ++ dictPairs d').length + 1 := by
        simp
      rw [hklen]
      simp only [groupPairsF]
      simp only [List.map_cons, List.nodup_cons] at hnd
      have hknotin : k ∉ d'.map (·.1) := hnd.1
      have hfpos : ((vs'.map fun w => (k, w)) ++ dictPairs d').filter
          (fun kv => kv.1 = k) = vs'.map fun w => (k, w) := by
        rw [List.filter_append]
        have h1 : (vs'.map fun w => (k, w)).filter (fun kv => kv.1 = k) =
            vs'.map fun w => (k, w) := by
          apply List.filter_eq_self.mpr
          intro x hx
          obtain ⟨w, _, hw⟩ := List.mem_map.mp hx
          subst hw
          simp
        have h2 : (dictPairs d').filter (fun kv => kv.1 = k) = [] := by
          apply List.filter_eq_nil_iff.mpr
          intro p hp
          have := dictPairs_fst_mem hp
          simp only [decide_eq_true_eq]
          intro heq
          rw [heq] at this
          exact hknotin this
        rw [h1, h2, List.append_nil]
      have hfneg : ((vs'.map fun w => (k, w)) ++ dictPairs d').filter
          (fun kv => ¬ kv.1 = k) = dictPairs d' := by
        rw [List.filter_append]
        have h1 : (vs'.map fun w => (k, w)).filter (fun kv => ¬ kv.1 = k) = [] := by
          apply List.filter_eq_nil_iff.mpr
          intro p hp
          obtain ⟨w, _, hw⟩ := List.mem_map.mp hp
          subst hw
          simp
        have h2 : (dictPairs d').filter (fun kv => ¬ kv.1 = k) = dictPairs d' := by
          apply List.filter_eq_self.mpr
          intro p hp
          have hmem := dictPairs_fst_mem hp
          have hne : ¬ p.1 = k := fun heq => hknotin (heq ▸ hmem)
          simp [hne]
        rw [h1, h2, List.nil_append]
      simp only [List.append_eq]
      rw [hfpos, hfneg]
      have hmap : (vs'.map fun w => (k, w)).map (·.2) = vs' := by
        rw [List.map_map]
        simp
      rw [hmap]
      congr 1
      have hlen : (dictPairs d').length ≤
          ((vs'.map fun w => (k, w)) ++ dictPairs d').length := by
        simp
      rw [groupPairsF_stable _ (dictPairs d').length _ hlen le_rfl]
      exact ih hnd.2 fun e2 he2 => hvne e2 (List.mem_cons_of_mem _ he2)

/-! ### Facts about the pairs `parse_qs` produces -/

theorem splitOnSubF_part_mem {sep : Str} : ∀ (fuel : Nat) (s part : Str),
    part ∈ splitOnSubF sep fuel s → ∀ c ∈ part, c ∈ s := by
  intro fuel
  induction fuel with
  | zero =>
    intro s part hp c hc
    simp only [splitOnSubF, List.mem_singleton] at hp
    subst hp
    exact hc
  | succ n ih =>
    intro s part hp c hc
    rcases hf : findSub sep s with _ | i
    · simp only [splitOnSubF, hf, List.mem_singleton] at hp
      subst hp
      exact hc
    · rw [splitOnSubF_step hf, List.mem_cons] at hp
      rcases hp with hp | hp
      · subst hp
        exact (List.take_sublist _ _).mem hc
      · exact (List.drop_sublist _ _).mem (ih _ part hp c hc)

theorem percentDecode_noescape {a b : Char} {rest : Str}
    (h : ¬ (isHexDigit a = true ∧ isHexDigit b = true)) :
    percentDecode ('%' :: a :: b :: rest) = '%' :: percentDecode (a :: b :: rest) := by
  simp [percentDecode, h]

theorem percentDecode_ne_nil {s : Str} (h : s ≠ []) : percentDecode s ≠ [] := by
  cases s with
  | nil => exact absurd rfl h
  | cons x xs =>
    by_cases hx : x = '%'
    · subst hx
      rcases xs with _ | ⟨a, _ | ⟨b, t⟩⟩
      · simp [percentDecode]
      · simp [percentDecode]
      · by_cases hhex : isHexDigit a = true ∧ isHexDigit b = true
        · rw [percentDecode_escape hhex.1 hhex.2]
          simp
        · rw [percentDecode_noescape hhex]
          simp
    · rw [percentDecode_cons hx]
      simp

theorem unquotePlus_ne_nil {s : Str} (h : s ≠ []) : unquotePlus s ≠ [] := by
  unfold unquotePlus
  apply percentDecode_ne_nil
  simp [h]

theorem charToNat_ofNat_lt {v : Nat} (hv : v < 256) : (Char.ofNat v).toNat < 256 := by
  have hvalid : Nat.isValidChar v := Or.inl (by omega)
  rw [Char.ofNat, dif_pos hvalid]
  simpa [Char.toNat, Char.ofNatAux] using hv

theorem percentDecode_chars {s : Str} (hs : ∀ c ∈ s, c.toNat < 128) :
    ∀ c ∈ percentDecode s, c.toNat < 256 := by
  induction s using percentDecode.induct with
  | case1 => intro c hc; cases hc
  | case2 a b rest hhex ih =>
    intro c hc
    rw [percentDecode_escape hhex.1 hhex.2] at hc
    rcases List.mem_cons.mp hc with hc | hc
    · subst hc
      apply charToNat_ofNat_lt
      have ha : hexVal a < 16 := by
        have := hhex.1
        simpa [isHexDigit] using this
      have hb : hexVal b < 16 := by
        have := hhex.2
        simpa [isHexDigit] using this
      omega
    · exact ih (fun x hx => hs x (by simp [hx])) c hc
  | case3 a b rest hhex ih =>
    intro c hc
    rw [percentDecode_noescape hhex] at hc
    rcases List.mem_cons.mp hc with hc | hc
    · subst hc
      have := hs '%' (by simp)
      omega
    · exact ih (fun x hx => hs x (by simp [hx])) c hc
  | case4 c0 rest hne ih =>
    intro c hc
    have hstep : percentDecode (c0 :: rest) = c0 :: percentDecode rest := by
      by_cases hc0 : c0 = '%'
      · subst hc0
        rcases rest with _ | ⟨a, _ | ⟨b, t⟩⟩
        · simp [percentDecode]
        · simp [percentDecode]
        · exact (hne a b t rfl rfl).elim
      · exact percentDecode_cons hc0
    rw [hstep] at hc
    rcases List.mem_cons.mp hc with hc | hc
    · subst hc
      have := hs c (by simp)
      omega
    · exact ih (fun x hx => hs x (by simp [hx])) c hc

theorem unquotePlus_chars {s : Str} (hs : ∀ c ∈ s, c.toNat < 128) :
    ∀ c ∈ unquotePlus s, c.toNat < 256 := by
  unfold unquotePlus
  apply percentDecode_chars
  intro c hc
  obtain ⟨c0, hc0, hceq⟩ := List.mem_map.mp hc
  subst hceq
  split
  · decide
  · exact hs c0 hc0

theorem parseQsl_facts {q : Str} {p : Str × Str} (hp : p ∈ parseQsl q) :
    p.2 ≠ [] ∧ ((∀ c ∈ q, c.toNat < 128) →
      (∀ c ∈ p.1, c.toNat < 256) ∧ ∀ c ∈ p.2, c.toNat < 256) := by
  unfold parseQsl at hp
  obtain ⟨nv, hnv, hsome⟩ := List.mem_filterMap.mp hp
  split at hsome
  · cases hsome
  · rcases hsp : splitAtFirst '=' nv with ⟨n, w?⟩
    rw [hsp] at hsome
    cases w? with
    | none => cases hsome
    | some w =>
      dsimp only at hsome
      split at hsome
      · cases hsome
      · rename_i hwne
        rcases Option.some.injEq .. ▸ hsome with heq
        have hn_sub : ∀ c ∈ n, c ∈ nv := by
          intro c hc
          rw [(splitAtFirst_some hsp).1]
          simp [hc]
        have hw_sub : ∀ c ∈ w, c ∈ nv := by
          intro c hc
          rw [(splitAtFirst_some hsp).1]
          simp [hc]
        have hnv_sub : ∀ c ∈ nv, c ∈ q :=
          splitOnSubF_part_mem _ _ _ hnv
        constructor
        · rw [← heq]
          exact unquotePlus_ne_nil hwne
        · intro hq
          rw [← heq]
          constructor
          · exact unquotePlus_chars fun c hc => hq c (hnv_sub c (hn_sub c hc))
          · exact unquotePlus_chars fun c hc => hq c (hnv_sub c (hw_sub c hc))

theorem parseQs_keys_nodup (q : Str) : ((parseQs q).map (·.1)).Nodup :=
  groupPairsF_keys_nodup _ _ le_rfl

theorem parseQs_vals_ne (q : Str) : ∀ e ∈ parseQs q, e.2 ≠ [] :=
  groupPairsF_vals_ne _ _ le_rfl

theorem parseQs_pair_mem {q : Str} {e : Str × List Str} (he : e ∈ parseQs q) :
    ∀ v ∈ e.2, (e.1, v) ∈ parseQsl q :=
  groupPairsF_mem _ _ e he

theorem parseQs_entry_chars {q : Str} (hq : ∀ c ∈ q, c.toNat < 128)
    {e : Str × List Str} (he : e ∈ parseQs q) :
    (∀ ch ∈ e.1, ch.toNat < 256) ∧ ∀ v ∈ e.2, v ≠ [] ∧ ∀ ch ∈ v, ch.toNat < 256 := by
  constructor
  · have hne := parseQs_vals_ne q e he
    obtain ⟨v, hv⟩ := List.exists_mem_of_ne_nil _ hne
    exact ((parseQsl_facts (parseQs_pair_mem he v hv)).2 hq).1
  · intro v hv
    have hfacts := parseQsl_facts (parseQs_pair_mem he v hv)
    exact ⟨hfacts.1, (hfacts.2 hq).2⟩

/-- The central `parse_qs` / `urlencode` round trip: re-parsing the encoded
filtered dict returns it unchanged (for ASCII query strings). -/
theorem parseQs_urlencode_filter (q : Str) (hq : ∀ c ∈ q, c.toNat < 128)
    (pred : Str × List Str → Bool) :
    parseQs (urlencodeSeq ((parseQs q).filter pred)) = (parseQs q).filter pred := by
  have hmem : ∀ e ∈ (parseQs q).filter pred, e ∈ parseQs q :=
    fun e he => List.mem_of_mem_filter he
  have hk : ∀ e ∈ (parseQs q).filter pred, ∀ ch ∈ e.1, ch.toNat < 256 :=
    fun e he => (parseQs_entry_chars hq (hmem e he)).1
  have hv : ∀ e ∈ (parseQs q).filter pred, ∀ v ∈ e.2,
      v ≠ [] ∧ ∀ ch ∈ v, ch.toNat < 256 :=
    fun e he => (parseQs_entry_chars hq (hmem e he)).2
  have hqsl := parseQsl_urlencodeSeq _ hk hv
  show groupPairsF (parseQsl (urlencodeSeq ((parseQs q).filter pred))).length
    (parseQsl (urlencodeSeq ((parseQs q).filter pred))) = (parseQs q).filter pred
  rw [hqsl]
  apply groupPairs_dictPairs
  · exact (parseQs_keys_nodup q).sublist ((List.filter_sublist _).map _)
  · exact fun e he => parseQs_vals_ne q e (hmem e he)

/-! ### Character-level facts used by the reparse development -/

theorem char_toNat_ofNat_small {n : Nat} (h : n < 55296) : (Char.ofNat n).toNat = n := by
  have hvalid : Nat.isValidChar n := Or.inl h
  rw [Char.ofNat, dif_pos hvalid]
  simp only [Char.toNat, Char.ofNatAux]
  rfl

theorem char_isUpper_iff {c : Char} : c.isUpper = true ↔ 65 ≤ c.toNat ∧ c.toNat ≤ 90 := by
  simp only [Char.isUpper, Bool.and_eq_true, decide_eq_true_eq, ge_iff_le,
    UInt32.le_def, BitVec.le_def]
  exact Iff.rfl

theorem char_isLower_iff {c : Char} : c.isLower = true ↔ 97 ≤ c.toNat ∧ c.toNat ≤ 122 := by
  simp only [Char.isLower, Bool.and_eq_true, decide_eq_true_eq, ge_iff_le,
    UInt32.le_def, BitVec.le_def]
  exact Iff.rfl

theorem char_isDigit_iff {c : Char} : c.isDigit = true ↔ 48 ≤ c.toNat ∧ c.toNat ≤ 57 := by
  simp only [Char.isDigit, Bool.and_eq_true, decide_eq_true_eq, ge_iff_le,
    UInt32.le_def, BitVec.le_def]
  exact Iff.rfl

theorem toLower_eq (c : Char) :
    c.toLower = if c.toNat ≥ 65 ∧ c.toNat ≤ 90 then Char.ofNat (c.toNat + 32) else c := rfl

theorem toLower_idem (c : Char) : c.toLower.toLower = c.toLower := by
  by_cases h : c.toNat ≥ 65 ∧ c.toNat ≤ 90
  · have h1 : c.toLower = Char.ofNat (c.toNat + 32) := by rw [toLower_eq, if_pos h]
    have h2 : (Char.ofNat (c.toNat + 32)).toNat = c.toNat + 32 :=
      char_toNat_ofNat_small (by omega)
    rw [h1, toLower_eq, h2, if_neg (by omega)]
  · have h1 : c.toLower = c := by rw [toLower_eq, if_neg h]
    rw [h1, h1]

theorem isAlpha_toLower {c : Char} (h : c.isAlpha = true) : c.toLower.isAlpha = true := by
  rw [Char.isAlpha, Bool.or_eq_true] at h ⊢
  rcases h with h | h
  · rw [char_isUpper_iff] at h
    right
    rw [char_isLower_iff, toLower_eq, if_pos (by omega),
      char_toNat_ofNat_small (by omega)]
    omega
  · rw [char_isLower_iff] at h
    right
    rw [toLower_eq, if_neg (by omega)]
    rw [char_isLower_iff]
    omega

theorem isSchemeChar_toLower {c : Char} (h : isSchemeChar c = true) :
    isSchemeChar c.toLower = true := by
  unfold isSchemeChar at h ⊢
  simp only [decide_eq_true_eq] at h ⊢
  rcases h with h | h | h | h
  · rw [Char.isAlphanum, Bool.or_eq_true] at h
    rcases h with h | h
    · left
      rw [Char.isAlphanum, Bool.or_eq_true]
      exact Or.inl (isAlpha_toLower h)
    · left
      rw [char_isDigit_iff] at h
      have hl : c.toLower = c := by
        rw [toLower_eq, if_neg (by omega)]
      rw [Char.isAlphanum, Bool.or_eq_true, hl]
      right
      rw [char_isDigit_iff]
      omega
  · rw [h]; right; left; decide
  · rw [h]; right; right; left; decide
  · rw [h]; right; right; right; decide

theorem isAlpha_toNat {c : Char} (h : c.isAlpha = true) : 65 ≤ c.toNat := by
  rw [Char.isAlpha, Bool.or_eq_true] at h
  rcases h with h | h
  · exact (char_isUpper_iff.mp h).1
  · have := (char_isLower_iff.mp h).1
    omega

/-- A character with `isSchemeChar` is none of the URL delimiters. -/
theorem schemeChar_ne {c : Char} (h : isSchemeChar c = true) (x : Char)
    (hx : isSchemeChar x = false) : c ≠ x := by
  intro he
  rw [he, hx] at h
  cases h

theorem netlocChar_ne {c : Char} (h : isNetlocChar c = true) :
    c ≠ '/' ∧ c ≠ '?' ∧ c ≠ '#' := by
  unfold isNetlocChar at h
  simp only [decide_eq_true_eq, not_or] at h
  exact h

theorem alnum_ne {c : Char} (h : c.isAlphanum = true) (x : Char)
    (hx : x.isAlphanum = false) : c ≠ x := by
  intro he
  rw [he, hx] at h
  cases h

theorem not_mem_of_all_alnum {s : Str} (hs : ∀ c ∈ s, c.isAlphanum = true)
    {x : Char} (hx : x.isAlphanum = false) : x ∉ s := by
  intro hm
  rw [hs x hm] at hx
  cases hx

theorem pyLower_idem (s : Str) : pyLower (pyLower s) = pyLower s := by
  unfold pyLower
  rw [List.map_map]
  exact List.map_congr_left fun c _ => toLower_idem c

theorem headD_map_of_ne_nil {f : Char → Char} {s : Str} (h : s ≠ []) (d d' : Char) :
    (s.map f).headD d = f (s.headD d') := by
  cases s with
  | nil => exact absurd rfl h
  | cons x xs => rfl

/-! ### `splitOff` / `splitAtLast` / `takeWhile` facts -/

theorem splitOff_of_not_mem {c : Char} {s : Str} (h : c ∉ s) : splitOff c s = (s, []) := by
  unfold splitOff
  rw [splitAtFirst_of_not_mem h]

theorem splitOff_append {c : Char} {a b : Str} (h : c ∉ a) :
    splitOff c (a ++ c :: b) = (a, b) := by
  unfold splitOff
  rw [splitAtFirst_append_of_not_mem h]

theorem splitOff_parts (c : Char) (s : Str) :
    c ∉ (splitOff c s).1 ∧ (∀ x ∈ (splitOff c s).1, x ∈ s) ∧
      ∀ x ∈ (splitOff c s).2, x ∈ s := by
  unfold splitOff
  rcases h : splitAtFirst c s with ⟨a, b?⟩
  cases b? with
  | none =>
    obtain ⟨ha, hm⟩ := splitAtFirst_none h
    subst ha
    exact ⟨hm, fun x hx => hx, fun x hx => (List.not_mem_nil x hx).elim⟩
  | some b =>
    obtain ⟨hs, hm⟩ := splitAtFirst_some h
    rw [hs]
    exact ⟨hm, fun x hx => by simp [hx], fun x hx => by simp [hx]⟩

theorem splitAtLast_some {c : Char} {s b a : Str}
    (h : splitAtLast c s = (b, some a)) : s = b ++ c :: a ∧ c ∉ a := by
  unfold splitAtLast at h
  rcases hr : splitAtFirst c s.reverse with ⟨ra, rb?⟩
  rw [hr] at h
  cases rb? with
  | none => cases h
  | some rb =>
    dsimp only at h
    injection h with h1 h2
    injection h2 with h2
    obtain ⟨hdec, hnm⟩ := splitAtFirst_some hr
    subst h1
    subst h2
    constructor
    · have hs2 := congrArg List.reverse hdec
      rw [List.reverse_reverse] at hs2
      rw [hs2]
      simp [List.reverse_append]
    · rw [List.mem_reverse]
      exact hnm

theorem splitAtLast_none {c : Char} {s b : Str}
    (h : splitAtLast c s = (b, none)) : b = s ∧ c ∉ s := by
  unfold splitAtLast at h
  rcases hr : splitAtFirst c s.reverse with ⟨ra, rb?⟩
  rw [hr] at h
  cases rb? with
  | some rb => cases h
  | none =>
    dsimp only at h
    injection h with h1 h2
    obtain ⟨_, hm⟩ := splitAtFirst_none hr
    rw [List.mem_reverse] at hm
    exact ⟨h1.symm, hm⟩

theorem takeWhile_append_stop {p : Char → Bool} : ∀ (a t : Str),
    (∀ c ∈ a, p c = true) → (t = [] ∨ p (t.headD ' ') = false) →
    (a ++ t).takeWhile p = a ∧ (a ++ t).dropWhile p = t := by
  intro a
  induction a with
  | nil =>
    intro t _ ht
    rcases ht with rfl | ht
    · exact ⟨rfl, rfl⟩
    · cases t with
      | nil => exact ⟨rfl, rfl⟩
      | cons x xs =>
        simp only [List.headD_cons] at ht
        have hx : ¬ p x = true := by rw [ht]; exact Bool.false_ne_true
        simp [List.takeWhile_cons_of_neg hx, List.dropWhile_cons_of_neg hx]
  | cons x xs ih =>
    intro t ha ht
    have hx : p x = true := ha x (by simp)
    have hr := ih t (fun c hc => ha c (by simp [hc])) ht
    simp [List.takeWhile_cons_of_pos hx, List.dropWhile_cons_of_pos hx, hr.1, hr.2]

/-! ### Invariants `urlsplit` / `urlparse` guarantee for the parts -/

theorem schemeSplit_inv {url sch rest : Str} (h : schemeSplit url = (sch, rest)) :
    (sch = [] ∧ rest = url) ∨
    ((sch.headD ' ').isAlpha = true ∧ (∀ c ∈ sch, isSchemeChar c = true) ∧
     pyLower sch = sch ∧ sch ≠ [] ∧ ∀ c ∈ rest, c ∈ url) := by
  unfold schemeSplit at h
  rcases hsp : splitAtFirst ':' url with ⟨before, after?⟩
  rw [hsp] at h
  cases after? with
  | none =>
    injection h with h1 h2
    exact Or.inl ⟨h1.symm, h2.symm⟩
  | some after =>
    dsimp only at h
    split at h
    · rename_i hcond
      obtain ⟨hb_ne, hb_alpha, hb_all⟩ := hcond
      injection h with h1 h2
      obtain ⟨hdec, _⟩ := splitAtFirst_some hsp
      right
      refine ⟨?_, ?_, ?_, ?_, ?_⟩
      · rw [← h1, pyLower, headD_map_of_ne_nil hb_ne ' ' ' ']
        exact isAlpha_toLower hb_alpha
      · intro c hc
        rw [← h1] at hc
        obtain ⟨c0, hc0, hceq⟩ := List.mem_map.mp hc
        subst hceq
        exact isSchemeChar_toLower (List.all_eq_true.mp hb_all c0 hc0)
      · rw [← h1]
        exact pyLower_idem before
      · rw [← h1]
        intro hnil
        exact hb_ne (List.map_eq_nil_iff.mp hnil)
      · intro c hc
        rw [← h2] at hc
        rw [hdec]
        simp [hc]
    · injection h with h1 h2
      exact Or.inl ⟨h1.symm, h2.symm⟩

theorem netlocSplit_slashslash (r : Str) :
    netlocSplit ('/' :: '/' :: r) = (r.takeWhile isNetlocChar, r.dropWhile isNetlocChar) := rfl

theorem netlocSplit_other {rest : Str} (h : rest.take 2 ≠ lit "//") :
    netlocSplit rest = ([], rest) := by
  unfold netlocSplit
  split
  · exact absurd rfl h
  · rfl

theorem netlocSplit_inv {rest : Str} :
    (∀ c ∈ (netlocSplit rest).1, isNetlocChar c = true) ∧
    (∀ c ∈ (netlocSplit rest).1, c ∈ rest) ∧
    ∀ c ∈ (netlocSplit rest).2, c ∈ rest := by
  unfold netlocSplit
  split
  · refine ⟨fun c hc => List.mem_takeWhile_imp hc, ?_, ?_⟩
    · intro c hc
      have := (List.takeWhile_sublist _).mem hc
      simp [this]
    · intro c hc
      have := (List.dropWhile_sublist _).mem hc
      simp [this]
  · exact ⟨fun c hc => (List.not_mem_nil c hc).elim, fun c hc => (List.not_mem_nil c hc).elim,
      fun c hc => hc⟩

theorem pyUrlsplit_inv {u : Str} {p : SplitParts} (h : pyUrlsplit u = .ok p) :
    (p.scheme = [] ∨ ((p.scheme.headD ' ').isAlpha = true ∧
      (∀ c ∈ p.scheme, isSchemeChar c = true) ∧ pyLower p.scheme = p.scheme)) ∧
    (∀ c ∈ p.netloc, isNetlocChar c = true) ∧
    bracketMismatch p.netloc = false ∧
    '?' ∉ p.path ∧ '#' ∉ p.path ∧ '#' ∉ p.query ∧
    (∀ c ∈ p.path, ¬ (c = '\t' ∨ c = '\r' ∨ c = '\n')) ∧
    (∀ c ∈ p.query, ¬ (c = '\t' ∨ c = '\r' ∨ c = '\n')) ∧
    (∀ c ∈ p.netloc, ¬ (c = '\t' ∨ c = '\r' ∨ c = '\n')) ∧
    (∀ c ∈ p.netloc, c.toNat < 128) ∧
    ¬ ('[' ∈ p.netloc ∧ ']' ∈ p.netloc) := by
  unfold pyUrlsplit at h
  dsimp only at h
  have hclean : ∀ c ∈ removeUnsafe (lstripControl u), ¬ (c = '\t' ∨ c = '\r' ∨ c = '\n') := by
    intro c hc
    have := List.of_mem_filter hc
    simpa using this
  rcases hss : schemeSplit (removeUnsafe (lstripControl u)) with ⟨sch, rest⟩
  rw [hss] at h
  have hrest_sub : ∀ c ∈ rest, c ∈ removeUnsafe (lstripControl u) := by
    rcases schemeSplit_inv hss with ⟨_, hr⟩ | ⟨_, _, _, _, hr⟩
    · rw [hr]
      exact fun c hc => hc
    · exact hr
  have hnl := @netlocSplit_inv rest
  rcases hns : netlocSplit rest with ⟨nl, rest2⟩
  rw [hns] at h hnl
  dsimp only at h hnl
  split at h
  · cases h
  · rename_i hbr
    rcases hcb : check_bracketed_host nl with e | u1
    · rw [hcb] at h
      cases h
    rw [hcb] at h
    dsimp only at h
    have hnb : ¬ ('[' ∈ nl ∧ ']' ∈ nl) := by
      unfold check_bracketed_host at hcb
      split at hcb
      · cases hcb
      · assumption
    have hrest2_sub : ∀ c ∈ rest2, c ∈ removeUnsafe (lstripControl u) :=
      fun c hc => hrest_sub c (hnl.2.2 c hc)
    have hfp := splitOff_parts '#' rest2
    rcases hfs : splitOff '#' rest2 with ⟨noFrag, frag⟩
    rw [hfs] at h hfp
    dsimp only at h hfp
    have hqp := splitOff_parts '?' noFrag
    rcases hqs : splitOff '?' noFrag with ⟨path, query⟩
    rw [hqs] at h hqp
    dsimp only at h hqp
    rcases hcn : checknetloc nl with e | u0
    · rw [hcn] at h
      cases h
    · rw [hcn] at h
      dsimp only at h
      injection h with h1
      subst h1
      dsimp only
      have hascii : ∀ c ∈ nl, c.toNat < 128 := by
        unfold checknetloc at hcn
        split at hcn
        · rename_i hcond
          rcases hcond with hcond | hcond
          · intro c hc
            rw [hcond] at hc
            cases hc
          · intro c hc
            have := List.all_eq_true.mp hcond c hc
            simpa using this
        · cases hcn
      refine ⟨?_, hnl.1, ?_, hqp.1, ?_, ?_, ?_, ?_, ?_, hascii, hnb⟩
      · rcases schemeSplit_inv hss with ⟨h0, _⟩ | ⟨ha, hb, hc, _, _⟩
        · exact Or.inl h0
        · exact Or.inr ⟨ha, hb, hc⟩
      · simpa using hbr
      · exact fun hm => hfp.1 (hqp.2.1 '#' hm)
      · exact fun hm => hfp.1 (hqp.2.2 '#' hm)
      · exact fun c hc => hclean c (hrest2_sub c (hfp.2.1 c (hqp.2.1 c hc)))
      · exact fun c hc => hclean c (hrest2_sub c (hfp.2.1 c (hqp.2.2 c hc)))
      · exact fun c hc => hclean c (hrest_sub c (hnl.2.1 c hc))

theorem splitparams_subset (url : Str) : ∀ c ∈ (splitparams url).1, c ∈ url := by
  unfold splitparams
  by_cases hs : '/' ∈ url
  · rw [if_pos hs]
    rcases hlast : splitAtLast '/' url with ⟨bef, aft?⟩
    cases aft? with
    | none =>
      obtain ⟨_, hm⟩ := splitAtLast_none hlast
      exact absurd hs hm
    | some aft =>
      dsimp only
      obtain ⟨hdec, _⟩ := splitAtLast_some hlast
      rcases hsp : splitAtFirst ';' aft with ⟨seg1, seg2?⟩
      cases seg2? with
      | none =>
        dsimp only
        exact fun c hc => hc
      | some seg2 =>
        dsimp only
        intro c hc
        obtain ⟨hadec, _⟩ := splitAtFirst_some hsp
        rw [hdec, hadec]
        simp only [List.mem_append, List.mem_cons] at hc ⊢
        rcases hc with hc | hc | hc
        · exact Or.inl hc
        · exact Or.inr (Or.inl hc)
        · exact Or.inr (Or.inr (by simp [hc]))
  · rw [if_neg hs]
    rcases hsp : splitAtFirst ';' url with ⟨u1, u2?⟩
    cases u2? with
    | some u2 =>
      dsimp only
      obtain ⟨hdec, _⟩ := splitAtFirst_some hsp
      intro c hc
      rw [hdec]
      simp [hc]
    | none =>
      dsimp only
      exact fun c hc => (List.dropLast_sublist url).mem hc

theorem pyUrlparse_inv {u : Str} {p : UrlParts} (h : pyUrlparse u = .ok p) :
    (p.scheme = [] ∨ ((p.scheme.headD ' ').isAlpha = true ∧
      (∀ c ∈ p.scheme, isSchemeChar c = true) ∧ pyLower p.scheme = p.scheme)) ∧
    (∀ c ∈ p.netloc, isNetlocChar c = true) ∧
    bracketMismatch p.netloc = false ∧
    '?' ∉ p.path ∧ '#' ∉ p.path ∧ '#' ∉ p.query ∧
    (∀ c ∈ p.path, ¬ (c = '\t' ∨ c = '\r' ∨ c = '\n')) ∧
    (∀ c ∈ p.query, ¬ (c = '\t' ∨ c = '\r' ∨ c = '\n')) ∧
    (∀ c ∈ p.netloc, ¬ (c = '\t' ∨ c = '\r' ∨ c = '\n')) ∧
    (∀ c ∈ p.netloc, c.toNat < 128) ∧
    ¬ ('[' ∈ p.netloc ∧ ']' ∈ p.netloc) := by
  unfold pyUrlparse at h
  rcases hsp : pyUrlsplit u with e | sp
  · rw [hsp] at h
    cases h
  · rw [hsp] at h
    have hinv := pyUrlsplit_inv hsp
    dsimp only at h
    split at h
    · injection h with h1
      subst h1
      dsimp only
      have hsub := splitparams_subset sp.path
      refine ⟨hinv.1, hinv.2.1, hinv.2.2.1, ?_, ?_, hinv.2.2.2.2.2.1, ?_,
        hinv.2.2.2.2.2.2.2.1, hinv.2.2.2.2.2.2.2.2.1,
        hinv.2.2.2.2.2.2.2.2.2.1, hinv.2.2.2.2.2.2.2.2.2.2⟩
      · exact fun hm => hinv.2.2.2.1 (hsub '?' hm)
      · exact fun hm => hinv.2.2.2.2.1 (hsub '#' hm)
      · exact fun c hc => hinv.2.2.2.2.2.2.1 c (hsub c hc)
    · injection h with h1
      subst h1
      exact hinv

/-! ### Re-splitting a `urlunsplit` result -/

theorem urlunsplit_no_frag (s n pa q : Str) (hs : s ≠ []) :
    urlunsplit s n pa q [] =
      s ++ ':' ::
        ((if n ≠ [] ∨ (s ≠ [] ∧ s ∈ uses_netloc ∧ pa.take 2 ≠ lit "//") then
            '/' :: '/' :: (n ++ (if pa ≠ [] ∧ pa.headD ' ' ≠ '/' then '/' :: pa else pa))
          else pa) ++
         (if q ≠ [] then '?' :: q else [])) := by
  unfold urlunsplit
  dsimp only
  rw [if_neg (fun hc : ([] : Str) ≠ [] => hc rfl), if_pos hs]
  by_cases hcond : n ≠ [] ∨ (s ≠ [] ∧ s ∈ uses_netloc ∧ pa.take 2 ≠ lit "//")
  · rw [if_pos hcond, if_pos hcond]
    by_cases hq : q ≠ []
    · rw [if_pos hq, if_pos hq]
      simp [List.append_assoc]
    · rw [if_neg hq, if_neg hq]
      simp
  · rw [if_neg hcond, if_neg hcond]
    by_cases hq : q ≠ []
    · rw [if_pos hq, if_pos hq]
      simp [List.append_assoc]
    · rw [if_neg hq, if_neg hq]
      simp

theorem schemeSplit_append {s rest : Str} (hs_ne : s ≠ [])
    (hs_alpha : (s.headD ' ').isAlpha = true)
    (hs_chars : ∀ c ∈ s, isSchemeChar c = true)
    (hs_lower : pyLower s = s) :
    schemeSplit (s ++ ':' :: rest) = (s, rest) := by
  have hcolon : ':' ∉ s := fun hm => absurd (hs_chars ':' hm) (by decide)
  unfold schemeSplit
  rw [splitAtFirst_append_of_not_mem hcolon]
  dsimp only
  rw [if_pos ⟨hs_ne, hs_alpha, List.all_eq_true.mpr hs_chars⟩, hs_lower]

theorem removeUnsafe_lstrip_id {u0 : Str}
    (hclean : ∀ c ∈ u0, ¬ (c = '\t' ∨ c = '\r' ∨ c = '\n'))
    (hhead : 32 < (u0.headD ' ').toNat) (hne : u0 ≠ []) :
    removeUnsafe (lstripControl u0) = u0 := by
  cases u0 with
  | nil => exact absurd rfl hne
  | cons c0 rest =>
    simp only [List.headD_cons] at hhead
    have hdw : List.dropWhile (fun c : Char => c.toNat ≤ 0x20) (c0 :: rest) =
        c0 :: rest :=
      List.dropWhile_cons_of_neg (by simp only [decide_eq_true_eq]; omega)
    rw [lstripControl, hdw]
    rw [removeUnsafe, List.filter_eq_self.mpr]
    intro a ha
    have := hclean a ha
    simpa using this

/-- The central reparse lemma: splitting a freshly reassembled URL recovers
the parts it was assembled from (with `rePathOf` describing the path). -/
theorem pyUrlsplit_urlunsplit {s n pa q : Str}
    (hs_ne : s ≠ [])
    (hs_alpha : (s.headD ' ').isAlpha = true)
    (hs_chars : ∀ c ∈ s, isSchemeChar c = true)
    (hs_lower : pyLower s = s)
    (hn_chars : ∀ c ∈ n, isNetlocChar c = true)
    (hn_clean : ∀ c ∈ n, ¬ (c = '\t' ∨ c = '\r' ∨ c = '\n'))
    (hn_ascii : ∀ c ∈ n, c.toNat < 128)
    (hn_nb : ¬ ('[' ∈ n ∧ ']' ∈ n))
    (hbr : bracketMismatch n = false)
    (hpa_clean : ∀ c ∈ pa, ¬ (c = '\t' ∨ c = '\r' ∨ c = '\n'))
    (hpa_q : '?' ∉ pa) (hpa_h : '#' ∉ pa)
    (hq_clean : ∀ c ∈ q, ¬ (c = '\t' ∨ c = '\r' ∨ c = '\n'))
    (hq_h : '#' ∉ q)
    (hnet : n ≠ [] ∨ pa.take 2 ≠ lit "//") :
    pyUrlsplit (urlunsplit s n pa q []) = .ok ⟨s, n, rePathOf s n pa, q, []⟩ := by
  rw [urlunsplit_no_frag s n pa q hs_ne]
  unfold rePathOf
  set pp := if pa ≠ [] ∧ pa.headD ' ' ≠ '/' then '/' :: pa else pa with hpp
  set qpart := if q ≠ [] then '?' :: q else [] with hqpart
  have hcn : checknetloc n = .ok () := by
    unfold checknetloc
    rw [if_pos (Or.inr (List.all_eq_true.mpr
      fun c hc => by simpa using hn_ascii c hc))]
  have hcb : check_bracketed_host n = .ok () := by
    unfold check_bracketed_host
    rw [if_neg hn_nb]
  have hs_clean : ∀ c ∈ s, ¬ (c = '\t' ∨ c = '\r' ∨ c = '\n') := by
    intro c hc h0
    have hcs := hs_chars c hc
    rcases h0 with rfl | rfl | rfl <;> exact absurd hcs (by decide)
  have hpp_mem : ∀ c ∈ pp, c = '/' ∨ c ∈ pa := by
    intro c hc
    rw [hpp] at hc
    split at hc
    · rcases List.mem_cons.mp hc with hc | hc
      · exact Or.inl hc
      · exact Or.inr hc
    · exact Or.inr hc
  have hqpart_mem : ∀ c ∈ qpart, c = '?' ∨ c ∈ q := by
    intro c hc
    rw [hqpart] at hc
    split at hc
    · rcases List.mem_cons.mp hc with hc | hc
      · exact Or.inl hc
      · exact Or.inr hc
    · cases hc
  have hpp_clean : ∀ c ∈ pp, ¬ (c = '\t' ∨ c = '\r' ∨ c = '\n') := by
    intro c hc
    rcases hpp_mem c hc with rfl | hc2
    · simp
    · exact hpa_clean c hc2
  have hqpart_clean : ∀ c ∈ qpart, ¬ (c = '\t' ∨ c = '\r' ∨ c = '\n') := by
    intro c hc
    rcases hqpart_mem c hc with rfl | hc2
    · simp
    · exact hq_clean c hc2
  have hpp_q : '?' ∉ pp := by
    intro hm
    rcases hpp_mem '?' hm with h0 | h0
    · cases h0
    · exact hpa_q h0
  have hpp_h : '#' ∉ pp := by
    intro hm
    rcases hpp_mem '#' hm with h0 | h0
    · cases h0
    · exact hpa_h h0
  have hppq_h : '#' ∉ pp ++ qpart := by
    intro hm
    rcases List.mem_append.mp hm with hm | hm
    · exact hpp_h hm
    · rcases hqpart_mem '#' hm with h0 | h0
      · cases h0
      · exact hq_h h0
  have hstop : pp ++ qpart = [] ∨ isNetlocChar ((pp ++ qpart).headD ' ') = false := by
    by_cases hpa : pa ≠ [] ∧ pa.headD ' ' ≠ '/'
    · right
      rw [hpp, if_pos hpa]
      rfl
    · rw [hpp, if_neg hpa]
      push_neg at hpa
      by_cases hpane : pa = []
      · subst hpane
        simp only [List.nil_append]
        by_cases hq : q ≠ []
        · right
          rw [hqpart, if_pos hq]
          rfl
        · left
          rw [hqpart, if_neg hq]
      · right
        have hhd := hpa hpane
        cases pa with
        | nil => exact absurd rfl hpane
        | cons c0 pa' =>
          simp only [List.headD_cons] at hhd
          subst hhd
          rfl
  have hsplitq : splitOff '?' (pp ++ qpart) = (pp, q) := by
    by_cases hq : q ≠ []
    · rw [hqpart, if_pos hq]
      exact splitOff_append hpp_q
    · rw [hqpart, if_neg hq, List.append_nil, splitOff_of_not_mem hpp_q,
        not_ne_iff.mp hq]
  by_cases hcond : n ≠ [] ∨ (s ≠ [] ∧ s ∈ uses_netloc ∧ pa.take 2 ≠ lit "//")
  · rw [if_pos hcond, if_pos hcond]
    have hclean : ∀ c ∈ s ++ ':' :: (('/' :: '/' :: (n ++ pp)) ++ qpart),
        ¬ (c = '\t' ∨ c = '\r' ∨ c = '\n') := by
      intro c hc
      rcases List.mem_append.mp hc with hc | hc
      · exact hs_clean c hc
      rcases List.mem_cons.mp hc with rfl | hc
      · simp
      rcases List.mem_append.mp hc with hc | hc
      · rcases List.mem_cons.mp hc with rfl | hc
        · simp
        rcases List.mem_cons.mp hc with rfl | hc
        · simp
        rcases List.mem_append.mp hc with hc | hc
        · exact hn_clean c hc
        · exact hpp_clean c hc
      · exact hqpart_clean c hc
    have hhead : 32 < ((s ++ ':' :: (('/' :: '/' :: (n ++ pp)) ++ qpart)).headD ' ').toNat := by
      cases s with
      | nil => exact absurd rfl hs_ne
      | cons c0 s' =>
        have hca : c0.isAlpha = true := by simpa using hs_alpha
        have h65 := isAlpha_toNat hca
        simp only [List.cons_append, List.headD_cons]
        omega
    unfold pyUrlsplit
    dsimp only
    rw [removeUnsafe_lstrip_id hclean hhead (by simp)]
    rw [schemeSplit_append hs_ne hs_alpha hs_chars hs_lower]
    have hshape : (('/' :: '/' :: (n ++ pp)) ++ qpart : Str) =
        '/' :: '/' :: ((n ++ pp) ++ qpart) := rfl
    rw [hshape, netlocSplit_slashslash, List.append_assoc]
    obtain ⟨htake, hdrop⟩ := takeWhile_append_stop n (pp ++ qpart) hn_chars hstop
    rw [htake, hdrop]
    dsimp only
    rw [if_neg (by simp [hbr] : ¬ bracketMismatch n = true)]
    rw [hcb]
    dsimp only
    rw [splitOff_of_not_mem hppq_h]
    dsimp only
    rw [hsplitq, hcn]
  · rw [if_neg hcond, if_neg hcond]
    push_neg at hcond
    have hn_nil : n = [] := hcond.1
    subst hn_nil
    have hpa2 : pa.take 2 ≠ lit "//" := hnet.resolve_left (fun hc => hc rfl)
    have hlit : (lit "//" : Str) = ['/', '/'] := rfl
    rw [hlit] at hpa2
    have htk : (pa ++ qpart).take 2 ≠ lit "//" := by
      rw [hlit]
      cases pa with
      | nil =>
        simp only [List.nil_append]
        by_cases hq : q ≠ []
        · rw [hqpart, if_pos hq]
          intro he
          simp only [List.take_succ_cons] at he
          injection he with h1 _
          exact absurd h1 (by decide)
        · rw [hqpart, if_neg hq]
          decide
      | cons x xs =>
        cases xs with
        | nil =>
          by_cases hq : q ≠ []
          · rw [hqpart, if_pos hq]
            intro he
            simp only [List.cons_append, List.nil_append, List.take_succ_cons] at he
            injection he with _ h2
            injection h2 with h2 _
            exact absurd h2 (by decide)
          · rw [hqpart, if_neg hq, List.append_nil]
            intro he
            simp at he
        | cons y t =>
          intro he
          simp only [List.cons_append, List.take_succ_cons, List.take_zero] at he
          injection he with h1 h2
          injection h2 with h2 _
          apply hpa2
          simp [List.take_succ_cons, h1, h2]
    have hclean : ∀ c ∈ s ++ ':' :: (pa ++ qpart),
        ¬ (c = '\t' ∨ c = '\r' ∨ c = '\n') := by
      intro c hc
      simp only [List.mem_append, List.mem_cons] at hc
      rcases hc with hc | rfl | hc | hc
      · exact hs_clean c hc
      · simp
      · exact hpa_clean c hc
      · exact hqpart_clean c hc
    have hhead : 32 < ((s ++ ':' :: (pa ++ qpart)).headD ' ').toNat := by
      cases s with
      | nil => exact absurd rfl hs_ne
      | cons c0 s' =>
        have hca : c0.isAlpha = true := by simpa using hs_alpha
        have h65 := isAlpha_toNat hca
        simp only [List.cons_append, List.headD_cons]
        omega
    unfold pyUrlsplit
    dsimp only
    rw [removeUnsafe_lstrip_id hclean hhead (by simp)]
    rw [schemeSplit_append hs_ne hs_alpha hs_chars hs_lower]
    rw [netlocSplit_other htk]
    dsimp only
    rw [if_neg (by decide : ¬ bracketMismatch [] = true)]
    have hpaq_h : '#' ∉ pa ++ qpart := by
      intro hm
      rcases List.mem_append.mp hm with hm | hm
      · exact hpa_h hm
      · rcases hqpart_mem '#' hm with h0 | h0
        · cases h0
        · exact hq_h h0
    rw [hcb]
    dsimp only
    rw [splitOff_of_not_mem hpaq_h]
    dsimp only
    have hsplitq2 : splitOff '?' (pa ++ qpart) = (pa, q) := by
      by_cases hq : q ≠ []
      · rw [hqpart, if_pos hq]
        exact splitOff_append hpa_q
      · rw [hqpart, if_neg hq, List.append_nil, splitOff_of_not_mem hpa_q,
          not_ne_iff.mp hq]
    rw [hsplitq2, hcn]

theorem urlunsplit_congr_path {s n pa1 pa2 q f : Str}
    (h : (if n ≠ [] ∨ (s ≠ [] ∧ s ∈ uses_netloc ∧ pa1.take 2 ≠ lit "//") then
            ('/' :: '/' :: n) ++
              (if pa1 ≠ [] ∧ pa1.headD ' ' ≠ '/' then '/' :: pa1 else pa1)
          else pa1) =
         (if n ≠ [] ∨ (s ≠ [] ∧ s ∈ uses_netloc ∧ pa2.take 2 ≠ lit "//") then
            ('/' :: '/' :: n) ++
              (if pa2 ≠ [] ∧ pa2.headD ' ' ≠ '/' then '/' :: pa2 else pa2)
          else pa2)) :
    urlunsplit s n pa1 q f = urlunsplit s n pa2 q f := by
  unfold urlunsplit
  rw [h]

/-- Reassembling with the reparsed path gives the same URL back. -/
theorem urlunsplit_rePath (s n pa q f : Str)
    (hnet : n ≠ [] ∨ pa.take 2 ≠ lit "//") :
    urlunsplit s n (rePathOf s n pa) q f = urlunsplit s n pa q f := by
  unfold rePathOf
  by_cases hcond : n ≠ [] ∨ (s ≠ [] ∧ s ∈ uses_netloc ∧ pa.take 2 ≠ lit "//")
  · rw [if_pos hcond]
    by_cases hpa : pa ≠ [] ∧ pa.headD ' ' ≠ '/'
    · rw [if_pos hpa]
      apply urlunsplit_congr_path
      have hcond2 : n ≠ [] ∨
          (s ≠ [] ∧ s ∈ uses_netloc ∧ ('/' :: pa).take 2 ≠ lit "//") := by
        rcases hcond with h | ⟨h1, h2, _⟩
        · exact Or.inl h
        · refine Or.inr ⟨h1, h2, ?_⟩
          intro he
          rw [show (lit "//" : Str) = ['/', '/'] from rfl] at he
          simp only [List.take_succ_cons] at he
          injection he with _ h2'
          cases pa with
          | nil => exact hpa.1 rfl
          | cons x xs =>
            simp only [List.take_succ_cons, List.take_zero] at h2'
            injection h2' with h3 _
            exact hpa.2 (by simp [h3])
      rw [if_pos hcond2, if_pos hcond, if_pos hpa,
        if_neg (fun hi : ('/' :: pa ≠ [] ∧ ('/' :: pa).headD ' ' ≠ '/') => hi.2 rfl)]
    · rw [if_neg hpa]
  · rw [if_neg hcond]

/-! ### Character classes of an encoded query -/

theorem intercalate_mem {sep : Str} {parts : List Str} {c : Char}
    (h : c ∈ List.intercalate sep parts) : c ∈ sep ∨ ∃ p ∈ parts, c ∈ p := by
  induction parts with
  | nil =>
    simp [List.intercalate] at h
  | cons x rest ih =>
    cases rest with
    | nil =>
      right
      refine ⟨x, by simp, ?_⟩
      simpa [List.intercalate] using h
    | cons y t =>
      have hstep : List.intercalate sep (x :: y :: t) =
          x ++ sep ++ List.intercalate sep (y :: t) := by
        simp [List.intercalate, List.intersperse]
      rw [hstep] at h
      simp only [List.append_assoc, List.mem_append] at h
      rcases h with h | h | h
      · exact Or.inr ⟨x, by simp, h⟩
      · exact Or.inl h
      · rcases ih h with h | ⟨p, hp, hcp⟩
        · exact Or.inl h
        · exact Or.inr ⟨p, List.mem_cons_of_mem x hp, hcp⟩

theorem urlencodeSeq_mem {d : List (Str × List Str)} {c : Char}
    (h : c ∈ urlencodeSeq d) :
    alwaysSafe c = true ∨ c = '+' ∨ c = '%' ∨ (∃ v, v < 16 ∧ c = hexDigitU v) ∨
      c = '=' ∨ c = '&' := by
  unfold urlencodeSeq at h
  rcases intercalate_mem h with h | ⟨part, hpart, hc⟩
  · right; right; right; right; right
    simpa [lit] using h
  · obtain ⟨e, _, hp2⟩ := List.mem_flatMap.mp hpart
    obtain ⟨v, _, hp3⟩ := List.mem_map.mp hp2
    subst hp3
    rcases List.mem_append.mp hc with hc | hc
    · rcases quotePlus_mem hc with h0 | h0 | h0 | h0
      · exact Or.inl h0
      · exact Or.inr (Or.inl h0)
      · exact Or.inr (Or.inr (Or.inl h0))
      · exact Or.inr (Or.inr (Or.inr (Or.inl h0)))
    · rcases List.mem_cons.mp hc with hc | hc
      · subst hc
        right; right; right; right; left; rfl
      · rcases quotePlus_mem hc with h0 | h0 | h0 | h0
        · exact Or.inl h0
        · exact Or.inr (Or.inl h0)
        · exact Or.inr (Or.inr (Or.inl h0))
        · exact Or.inr (Or.inr (Or.inr (Or.inl h0)))

theorem not_mem_urlencodeSeq (d : List (Str × List Str)) (c : Char)
    (h1 : alwaysSafe c = false) (h2 : c ≠ '+') (h3 : c ≠ '%')
    (h4 : ∀ v < 16, hexDigitU v ≠ c) (h5 : c ≠ '=') (h6 : c ≠ '&') :
    c ∉ urlencodeSeq d := by
  intro hm
  rcases urlencodeSeq_mem hm with h0 | h0 | h0 | ⟨v, hv, h0⟩ | h0 | h0
  · rw [h1] at h0; cases h0
  · exact h2 h0
  · exact h3 h0
  · exact h4 v hv h0.symm
  · exact h5 h0
  · exact h6 h0

theorem urlencodeSeq_clean (d : List (Str × List Str)) :
    (∀ c ∈ urlencodeSeq d, ¬ (c = '\t' ∨ c = '\r' ∨ c = '\n')) ∧
      '#' ∉ urlencodeSeq d := by
  constructor
  · intro c hc h0
    rcases h0 with rfl | rfl | rfl
    · exact not_mem_urlencodeSeq d '\t' (by decide) (by decide) (by decide)
        (by decide) (by decide) (by decide) hc
    · exact not_mem_urlencodeSeq d '\r' (by decide) (by decide) (by decide)
        (by decide) (by decide) (by decide) hc
    · exact not_mem_urlencodeSeq d '\n' (by decide) (by decide) (by decide)
        (by decide) (by decide) (by decide) hc
  · exact not_mem_urlencodeSeq d '#' (by decide) (by decide) (by decide)
      (by decide) (by decide) (by decide)

theorem intercalate_head_ne_nil {sep x : Str} {xs : List Str} (hx : x ≠ []) :
    List.intercalate sep (x :: xs) ≠ [] := by
  cases xs with
  | nil => simpa [List.intercalate] using hx
  | cons y t =>
    have hstep : List.intercalate sep (x :: y :: t) =
        x ++ sep ++ List.intercalate sep (y :: t) := by
      simp [List.intercalate, List.intersperse]
    rw [hstep]
    simp [hx]

theorem urlencodeSeq_ne_nil {d : List (Str × List Str)} (hd : d ≠ [])
    (hv : ∀ e ∈ d, e.2 ≠ []) : urlencodeSeq d ≠ [] := by
  rcases d with _ | ⟨e, d'⟩
  · exact absurd rfl hd
  · rcases he : e.2 with _ | ⟨v, vs⟩
    · exact absurd he (hv e (by simp))
    · unfold urlencodeSeq
      simp only [List.flatMap_cons, he, List.map_cons, List.cons_append]
      exact intercalate_head_ne_nil (by simp)

/-! ### Idempotence of the generic tracking-stripping branch -/

theorem urlunparse_no_params (s n pa q f : Str) :
    urlunparse s n pa [] q f = urlunsplit s n pa q f := rfl

theorem percentDecode_of_no_percent {s : Str} (h : '%' ∉ s) : percentDecode s = s := by
  induction s using percentDecode.induct with
  | case1 => rfl
  | case2 a b rest hhex ih => exact absurd (List.mem_cons_self '%' _) h
  | case3 a b rest hhex ih => exact absurd (List.mem_cons_self '%' _) h
  | case4 c0 rest hne ih =>
    have hc0 : c0 ≠ '%' := fun he => h (by rw [he]; exact List.mem_cons_self _ _)
    rw [percentDecode_cons hc0, ih (fun hm => h (List.mem_cons_of_mem c0 hm))]

theorem unquotePlus_plain {s : Str} (hperc : '%' ∉ s) (hplus : '+' ∉ s) :
    unquotePlus s = s := by
  unfold unquotePlus
  have hmap : s.map (fun c => if c = '+' then ' ' else c) = s := by
    calc s.map (fun c => if c = '+' then ' ' else c)
        = s.map id :=
          List.map_congr_left fun a ha => if_neg fun he : a = '+' => hplus (he ▸ ha)
      _ = s := List.map_id s
  rw [hmap]
  exact percentDecode_of_no_percent hperc

/-- On the generic branch — host neither LinkedIn nor Indeed, a real scheme,
no `;` in the parsed path, an ASCII query and no `//`-prefixed rootless
path — the output of `clean_job_url` is a fixed point of `clean_job_url`. -/
theorem clean_job_url_generic_idem {u : Str} {p : UrlParts}
    (hp : pyUrlparse u = .ok p)
    (hlk : containsSub (lit "linkedin.com") p.netloc = false)
    (hin : containsSub (lit "indeed.com") p.netloc = false)
    (hsch : p.scheme ≠ [])
    (hnet : p.netloc ≠ [] ∨ p.path.take 2 ≠ lit "//")
    (hsemi : ';' ∉ p.path)
    (hq128 : ∀ c ∈ p.query, c.toNat < 128) :
    ∀ r, clean_job_url u = .ok r → clean_job_url r = .ok r := by
  intro r hr
  obtain ⟨hschemeInv, hnlChars, hbr, hpaQ, hpaH, hqH, hpaClean, hqClean, hnlClean,
    hnlAscii, hnlNB⟩ := pyUrlparse_inv hp
  rcases hschemeInv with h0 | ⟨hsAlpha, hsChars, hsLower⟩
  · exact absurd h0 hsch
  have hu_ne : u ≠ [] := by
    intro he
    subst he
    rw [show pyUrlparse ([] : Str) = .ok ⟨[], [], [], [], [], []⟩ from rfl] at hp
    injection hp with hp1
    rw [← hp1] at hsch
    exact hsch rfl
  unfold clean_job_url at hr
  rw [if_neg hu_ne, hp] at hr
  dsimp only at hr
  rw [if_neg (by simp [hlk]), if_neg (by simp [hin])] at hr
  injection hr with hr1
  have hsemi2 : ';' ∉ rePathOf p.scheme p.netloc p.path := by
    intro hm
    unfold rePathOf at hm
    split at hm
    · split at hm
      · rcases List.mem_cons.mp hm with h0 | h0
        · cases h0
        · exact hsemi h0
      · exact hsemi hm
    · exact hsemi hm
  by_cases hq : p.query = []
  · have hru : genericClean u p = u := by
      unfold genericClean
      rw [if_neg (fun hc => hc hq)]
    rw [hru] at hr1
    rw [← hr1]
    exact clean_job_url_inert hp hq hlk hin
  · unfold genericClean at hr1
    rw [if_pos hq] at hr1
    dsimp only at hr1
    set cleaned := (parseQs p.query).filter (fun kv => kv.1 ∉ tracking_params)
      with hcleaned
    have hvals : ∀ e ∈ cleaned, e.2 ≠ [] := by
      intro e he
      rw [hcleaned] at he
      exact parseQs_vals_ne _ e (List.mem_of_mem_filter he)
    by_cases hcne : cleaned ≠ []
    · rw [if_pos hcne, urlunparse_no_params] at hr1
      set q2 := urlencodeSeq cleaned with hq2
      have hq2_ne : q2 ≠ [] := by
        rw [hq2]
        exact urlencodeSeq_ne_nil hcne hvals
      have hq2_clean : ∀ c ∈ q2, ¬ (c = '\t' ∨ c = '\r' ∨ c = '\n') := by
        rw [hq2]
        exact (urlencodeSeq_clean cleaned).1
      have hq2_hash : '#' ∉ q2 := by
        rw [hq2]
        exact (urlencodeSeq_clean cleaned).2
      have hround : parseQs q2 = cleaned := by
        rw [hq2, hcleaned]
        exact parseQs_urlencode_filter p.query hq128 _
      have hfilter_idem : cleaned.filter (fun kv => kv.1 ∉ tracking_params) =
          cleaned := by
        apply List.filter_eq_self.mpr
        intro a ha
        rw [hcleaned] at ha
        have h2 := List.of_mem_filter ha
        exact h2
      have hsplit2 : pyUrlsplit r =
          .ok ⟨p.scheme, p.netloc, rePathOf p.scheme p.netloc p.path, q2, []⟩ := by
        rw [← hr1]
        exact pyUrlsplit_urlunsplit hsch hsAlpha hsChars hsLower hnlChars hnlClean
          hnlAscii hnlNB hbr hpaClean hpaQ hpaH hq2_clean hq2_hash hnet
      have hparse2 : pyUrlparse r =
          .ok ⟨p.scheme, p.netloc, rePathOf p.scheme p.netloc p.path, [], q2, []⟩ := by
        unfold pyUrlparse
        rw [hsplit2]
        dsimp only
        rw [if_neg (fun hc => hsemi2 hc.2)]
      have hr_ne : r ≠ [] := by
        rw [← hr1, urlunsplit_no_frag _ _ _ _ hsch]
        intro he
        rcases List.append_eq_nil.mp he with ⟨h1, _⟩
        exact hsch h1
      unfold clean_job_url
      rw [if_neg hr_ne, hparse2]
      dsimp only
      rw [if_neg (by simp [hlk]), if_neg (by simp [hin])]
      unfold genericClean
      dsimp only
      rw [if_pos hq2_ne, hround, hfilter_idem, if_pos hcne, urlunparse_no_params,
        urlunsplit_rePath _ _ _ _ _ hnet, hr1]
    · rw [if_neg hcne, urlunparse_no_params] at hr1
      have hsplit2 : pyUrlsplit r =
          .ok ⟨p.scheme, p.netloc, rePathOf p.scheme p.netloc p.path, [], []⟩ := by
        rw [← hr1]
        exact pyUrlsplit_urlunsplit hsch hsAlpha hsChars hsLower hnlChars hnlClean
          hnlAscii hnlNB hbr hpaClean hpaQ hpaH
          (fun c hc => absurd hc (List.not_mem_nil c))
          (List.not_mem_nil '#') hnet
      have hparse2 : pyUrlparse r =
          .ok ⟨p.scheme, p.netloc, rePathOf p.scheme p.netloc p.path, [], [], []⟩ := by
        unfold pyUrlparse
        rw [hsplit2]
        dsimp only
        rw [if_neg (fun hc => hsemi2 hc.2)]
      exact clean_job_url_inert hparse2 rfl hlk hin

/-! ### The job-board canonical forms are fixed points -/

theorem clean_linkedin_canonical {jid : Str} (hj : ∀ c ∈ jid, c.isAlphanum = true) :
    clean_job_url (lit "https://www.linkedin.com/jobs/view/" ++ jid) =
      .ok (lit "https://www.linkedin.com/jobs/view/" ++ jid) := by
  have hjid_slash : '/' ∉ jid := not_mem_of_all_alnum hj (by decide)
  have hjid_q : '?' ∉ jid := not_mem_of_all_alnum hj (by decide)
  have hjid_semi : ';' ∉ jid := not_mem_of_all_alnum hj (by decide)
  have hjid_hash : '#' ∉ jid := not_mem_of_all_alnum hj (by decide)
  have hjid_clean : ∀ c ∈ jid, ¬ (c = '\t' ∨ c = '\r' ∨ c = '\n') := by
    intro c hc h0
    have hcs := hj c hc
    rcases h0 with rfl | rfl | rfl <;> exact absurd hcs (by decide)
  have hpa_clean : ∀ c ∈ lit "/jobs/view/" ++ jid,
      ¬ (c = '\t' ∨ c = '\r' ∨ c = '\n') := by
    intro c hc
    rcases List.mem_append.mp hc with hc | hc
    · intro h0
      rcases h0 with rfl | rfl | rfl <;> exact absurd hc (by decide)
    · exact hjid_clean c hc
  have hpa_q : '?' ∉ lit "/jobs/view/" ++ jid := by
    intro hm
    rcases List.mem_append.mp hm with hm | hm
    · exact absurd hm (by decide)
    · exact hjid_q hm
  have hpa_h : '#' ∉ lit "/jobs/view/" ++ jid := by
    intro hm
    rcases List.mem_append.mp hm with hm | hm
    · exact absurd hm (by decide)
    · exact hjid_hash hm
  have hurl : lit "https://www.linkedin.com/jobs/view/" ++ jid =
      urlunsplit (lit "https") (lit "www.linkedin.com")
        (lit "/jobs/view/" ++ jid) [] [] := rfl
  have hrepath : rePathOf (lit "https") (lit "www.linkedin.com")
      (lit "/jobs/view/" ++ jid) = lit "/jobs/view/" ++ jid := by
    unfold rePathOf
    rw [if_pos (Or.inl (by decide)), if_neg (fun hc => hc.2 rfl)]
  have hsplit : pyUrlsplit (lit "https://www.linkedin.com/jobs/view/" ++ jid) =
      .ok ⟨lit "https", lit "www.linkedin.com", lit "/jobs/view/" ++ jid, [], []⟩ := by
    rw [hurl, ← hrepath]
    exact pyUrlsplit_urlunsplit (by decide) (by decide) (by decide) (by decide)
      (by decide) (by decide) (by decide) (by decide) (by decide)
      hpa_clean hpa_q hpa_h
      (fun c hc => absurd hc (List.not_mem_nil c)) (List.not_mem_nil '#')
      (Or.inl (by decide))
  have hparse : pyUrlparse (lit "https://www.linkedin.com/jobs/view/" ++ jid) =
      .ok ⟨lit "https", lit "www.linkedin.com", lit "/jobs/view/" ++ jid,
        [], [], []⟩ := by
    unfold pyUrlparse
    rw [hsplit]
    dsimp only
    rw [if_neg (fun hc => ?_)]
    rcases List.mem_append.mp hc.2 with hm | hm
    · exact absurd hm (by decide)
    · exact hjid_semi hm
  have hne : lit "https://www.linkedin.com/jobs/view/" ++ jid ≠ [] :=
    fun he => absurd (List.append_eq_nil.mp he).1 (by decide)
  have hgetl : ([([] : Str), jid]).getLastD [] = jid := rfl
  have hfind : findSub (lit "/jobs/view/")
      (([] : Str) ++ lit "/jobs/view/" ++ jid) = some ([] : Str).length := by
    simp only [List.nil_append]
    rw [findSub_of_isPrefixOf
      (List.isPrefixOf_iff_prefix.mpr (List.prefix_append _ _))]
    rfl
  have hsplitOn : splitOnSub (lit "/jobs/view/") (lit "/jobs/view/" ++ jid) =
      [([] : Str), jid] := by
    have h1 : (lit "/jobs/view/" ++ jid : Str) =
        ([] : Str) ++ lit "/jobs/view/" ++ jid := by simp
    rw [h1, splitOnSub_cons_of_found (by decide) hfind]
    rw [splitOnSub_of_none (findSub_eq_none_of_not_mem
      (show '/' ∈ lit "/jobs/view/" by decide) hjid_slash)]
  have hlk_id : lkIdOfPath (lit "/jobs/view/" ++ jid) = jid := by
    unfold lkIdOfPath beforeFirst
    rw [hsplitOn, hgetl, splitAtFirst_of_not_mem hjid_q]
    dsimp only
    rw [splitAtFirst_of_not_mem hjid_slash]
  unfold clean_job_url
  rw [if_neg hne, hparse]
  dsimp only
  rw [if_pos (by decide :
    containsSub (lit "linkedin.com") (lit "www.linkedin.com") = true)]
  have hjv : containsSub (lit "/jobs/view/") (lit "/jobs/view/" ++ jid) = true := by
    unfold containsSub
    rw [findSub_of_isPrefixOf
      (List.isPrefixOf_iff_prefix.mpr (List.prefix_append _ _))]
    rfl
  rw [if_pos hjv, hlk_id]

theorem clean_indeed_canonical {v : Str} (hv : v ≠ [])
    (hva : ∀ c ∈ v, c.isAlphanum = true) :
    clean_job_url (lit "https://www.indeed.com/viewjob?jk=" ++ v) =
      .ok (lit "https://www.indeed.com/viewjob?jk=" ++ v) := by
  have hv_amp : '&' ∉ v := not_mem_of_all_alnum hva (by decide)
  have hv_hash : '#' ∉ v := not_mem_of_all_alnum hva (by decide)
  have hv_perc : '%' ∉ v := not_mem_of_all_alnum hva (by decide)
  have hv_plus : '+' ∉ v := not_mem_of_all_alnum hva (by decide)
  have hv_clean : ∀ c ∈ v, ¬ (c = '\t' ∨ c = '\r' ∨ c = '\n') := by
    intro c hc h0
    have hcs := hva c hc
    rcases h0 with rfl | rfl | rfl <;> exact absurd hcs (by decide)
  have hq_clean : ∀ c ∈ lit "jk=" ++ v, ¬ (c = '\t' ∨ c = '\r' ∨ c = '\n') := by
    intro c hc
    rcases List.mem_append.mp hc with hc | hc
    · intro h0
      rcases h0 with rfl | rfl | rfl <;> exact absurd hc (by decide)
    · exact hv_clean c hc
  have hq_hash : '#' ∉ lit "jk=" ++ v := by
    intro hm
    rcases List.mem_append.mp hm with hm | hm
    · exact absurd hm (by decide)
    · exact hv_hash hm
  have hurl : lit "https://www.indeed.com/viewjob?jk=" ++ v =
      urlunsplit (lit "https") (lit "www.indeed.com") (lit "/viewjob")
        (lit "jk=" ++ v) [] := by
    rw [urlunsplit_no_frag _ _ _ _ (by decide), if_pos (Or.inl (by decide)),
      if_neg (fun hc => hc.2 rfl),
      if_pos (show (lit "jk=" ++ v : Str) ≠ [] from
        fun he => hv (List.append_eq_nil.mp he).2)]
    rfl
  have hrepath : rePathOf (lit "https") (lit "www.indeed.com") (lit "/viewjob") =
      lit "/viewjob" := by
    unfold rePathOf
    rw [if_pos (Or.inl (by decide)), if_neg (fun hc => hc.2 rfl)]
  have hsplit : pyUrlsplit (lit "https://www.indeed.com/viewjob?jk=" ++ v) =
      .ok ⟨lit "https", lit "www.indeed.com", lit "/viewjob",
        lit "jk=" ++ v, []⟩ := by
    rw [hurl, ← hrepath]
    exact pyUrlsplit_urlunsplit (by decide) (by decide) (by decide) (by decide)
      (by decide) (by decide) (by decide) (by decide) (by decide) (by decide)
      (by decide) (by decide) hq_clean hq_hash (Or.inl (by decide))
  have hparse : pyUrlparse (lit "https://www.indeed.com/viewjob?jk=" ++ v) =
      .ok ⟨lit "https", lit "www.indeed.com", lit "/viewjob", [],
        lit "jk=" ++ v, []⟩ := by
    unfold pyUrlparse
    rw [hsplit]
    dsimp only
    rw [if_neg (fun hc => absurd hc.2 (by decide))]
  have hne : lit "https://www.indeed.com/viewjob?jk=" ++ v ≠ [] :=
    fun he => absurd (List.append_eq_nil.mp he).1 (by decide)
  have hqsl : parseQsl (lit "jk=" ++ v) = [(lit "jk", v)] := by
    unfold parseQsl
    have hnone : findSub (lit "&") (lit "jk=" ++ v) = none := by
      apply findSub_eq_none_of_not_mem (show '&' ∈ lit "&" by decide)
      intro hm
      rcases List.mem_append.mp hm with hm | hm
      · exact absurd hm (by decide)
      · exact hv_amp hm
    rw [splitOnSub_of_none hnone]
    have hsp : splitAtFirst '=' (lit "jk=" ++ v) = (lit "jk", some v) := by
      have h1 : (lit "jk=" ++ v : Str) = lit "jk" ++ '=' :: v := rfl
      rw [h1]
      exact splitAtFirst_append_of_not_mem (by decide)
    simp only [List.filterMap_cons, List.filterMap_nil]
    rw [if_neg (show ¬ (lit "jk=" ++ v : Str) = [] from
      fun he => hv (List.append_eq_nil.mp he).2), hsp]
    dsimp only
    rw [if_neg hv, unquotePlus_plain (by decide) (by decide),
      unquotePlus_plain hv_perc hv_plus]
  have hqs : parseQs (lit "jk=" ++ v) = [(lit "jk", [v])] := by
    unfold parseQs
    rw [hqsl]
    rfl
  unfold clean_job_url
  rw [if_neg hne, hparse]
  dsimp only
  rw [if_neg (by decide :
    ¬ containsSub (lit "linkedin.com") (lit "www.indeed.com") = true)]
  rw [if_pos (by decide :
    containsSub (lit "indeed.com") (lit "www.indeed.com") = true)]
  rw [hqs]
  rfl

/-- C1, amended.  `clean_job_url` is not idempotent in general (see
`C1_counterexample`: the job-board branches embed the percent-decoded id
token, which decodes again on a second pass).  It is idempotent on
(a) canonical LinkedIn job-view URLs with an alphanumeric id, (b) canonical
Indeed `viewjob?jk=` URLs with a non-empty alphanumeric token, and (c) the
entire generic branch: any URL whose parsed host is neither LinkedIn nor
Indeed, with a non-empty scheme, an ASCII query, no `;` in the parsed path
and not a netloc-free `//`-rooted path — there the result of
`clean_job_url` is a fixed point of `clean_job_url`. -/
theorem C1_idempotent_amended :
    (∀ jid : Str, (∀ c ∈ jid, c.isAlphanum = true) →
      clean_job_url (lit "https://www.linkedin.com/jobs/view/" ++ jid) =
        .ok (lit "https://www.linkedin.com/jobs/view/" ++ jid)) ∧
    (∀ v : Str, v ≠ [] → (∀ c ∈ v, c.isAlphanum = true) →
      clean_job_url (lit "https://www.indeed.com/viewjob?jk=" ++ v) =
        .ok (lit "https://www.indeed.com/viewjob?jk=" ++ v)) ∧
    (∀ (u : Str) (p : UrlParts) (r : Str), pyUrlparse u = .ok p →
      containsSub (lit "linkedin.com") p.netloc = false →
      containsSub (lit "indeed.com") p.netloc = false →
      p.scheme ≠ [] →
      (p.netloc ≠ [] ∨ p.path.take 2 ≠ lit "//") →
      ';' ∉ p.path →
      (∀ c ∈ p.query, c.toNat < 128) →
      clean_job_url u = .ok r →
      clean_job_url r = .ok r) :=
  ⟨fun _ hj => clean_linkedin_canonical hj,
   fun _ hv hva => clean_indeed_canonical hv hva,
   fun _ _ r hp hlk hin hsch hnet hsemi hq hr =>
     clean_job_url_generic_idem hp hlk hin hsch hnet hsemi hq r hr⟩

/-- C1 witness: the amended idempotence at concrete inputs — a canonical
LinkedIn URL, a canonical Indeed URL, and a generic URL whose tracking
parameters get stripped. -/
theorem C1_witness :
    clean_job_url (lit "https://www.linkedin.com/jobs/view/" ++ lit "4001") =
      .ok (lit "https://www.linkedin.com/jobs/view/" ++ lit "4001") ∧
    clean_job_url (lit "https://www.indeed.com/viewjob?jk=" ++ lit "ab12") =
      .ok (lit "https://www.indeed.com/viewjob?jk=" ++ lit "ab12") ∧
    clean_job_url (lit "https://example.com/a?b=c&utm_source=x") =
      .ok (lit "https://example.com/a?b=c") ∧
    clean_job_url (lit "https://example.com/a?b=c") =
      .ok (lit "https://example.com/a?b=c") :=
  ⟨C1_idempotent_amended.1 (lit "4001") (by decide),
   C1_idempotent_amended.2.1 (lit "ab12") (by decide) (by decide),
   by rfl,
   C1_idempotent_amended.2.2 (lit "https://example.com/a?b=c&utm_source=x")
     ⟨lit "https", lit "example.com", lit "/a", [], lit "b=c&utm_source=x", []⟩
     (lit "https://example.com/a?b=c")
     (by rfl) (by rfl) (by rfl) (by decide) (Or.inl (by decide)) (by decide)
     (by decide) (by rfl)⟩

end HireTrack
